import Mathlib

/-!
Shallow embedding of the pack-optimizer core
(`internal/service/optimizer.go`).  Go `int` values are modelled as `Int`
(the validated inputs are bounded by the int32 maximum, so no Go-side
overflow is possible on any arithmetic performed after validation, and
`Int` arithmetic agrees with the source's `int`/`int64` arithmetic);
slices are modelled as `List`; fallible functions return `Except`.
-/

namespace PackOptimizer

/-- `maxInt32Value` from the source: `int(^uint32(0) >> 1) = 2147483647`. -/
def maxInt32Value : Int := 2147483647

/-- `maxTableEntries` from the source. -/
def maxTableEntries : Int := 2000000

/-- The error values declared at the top of `optimizer.go`.  The Go code
wraps some of them with `fmt.Errorf` context; `errors.Is` identity (which
is what callers and tests observe) is captured by the constructor. -/
inductive OptError where
  | invalidItemsOrdered
  | invalidPackSizes
  | optimizationTooLarge
  | noPackingPlan
  | reconstructPlan
deriving DecidableEq, Repr

/-- `PackBreakdown` struct.  The count is produced by incrementing a map
entry, hence a natural number. -/
structure PackBreakdown where
  size : Int
  count : Nat
deriving DecidableEq, Repr

/-- `Plan` struct.  `totalItems` and `totalPacks` are table indices /
minPacks entries, which are natural numbers. -/
structure Plan where
  itemsOrdered : Int
  totalItems : Nat
  totalPacks : Nat
  packs : List PackBreakdown
deriving DecidableEq, Repr

/-- The validation/dedup loop of `NormalizePackSizes`.  `seen` plays the
role of the `seen` map together with the `normalized` slice (the two always
hold the same values in the source, since every appended value is also
recorded in the map). -/
def normalizeAux : List Int → List Int → Except OptError (List Int)
  | seen, [] => .ok seen
  | seen, size :: rest =>
    if size ≤ 0 then .error .invalidPackSizes
    else if size > maxInt32Value then .error .invalidPackSizes
    else if size ∈ seen then normalizeAux seen rest
    else normalizeAux (seen ++ [size]) rest

/-- Insertion step for descending sort. -/
def insertDesc (x : Int) : List Int → List Int
  | [] => [x]
  | y :: ys => if y ≤ x then x :: y :: ys else y :: insertDesc x ys

/-- Descending insertion sort, modelling
`sort.Sort(sort.Reverse(sort.IntSlice(normalized)))`.  After dedup the
values are pairwise distinct, so the descending-sorted rearrangement is
unique and any correct sort (stable or not) produces this list. -/
def sortDesc : List Int → List Int
  | [] => []
  | x :: xs => insertDesc x (sortDesc xs)

/-- `NormalizePackSizes` from the source. -/
def NormalizePackSizes (packSizes : List Int) : Except OptError (List Int) :=
  if packSizes.isEmpty then .error .invalidPackSizes
  else
    match normalizeAux [] packSizes with
    | .error e => .error e
    | .ok normalized =>
      if normalized.isEmpty then .error .invalidPackSizes
      else .ok (sortDesc normalized)

/-- One row of the three aligned DP arrays (`minPacks`, `prevTotal`,
`prevPack`) at a fixed total. -/
structure Cell where
  minPacks : Nat
  prevTotal : Int
  prevPack : Int
deriving DecidableEq, Repr

/-- The initial value of a row: `minPacks` at the unreachable sentinel,
both backtracking pointers at `unset = -1`. -/
def unsetCell (u : Nat) : Cell := ⟨u, -1, -1⟩

/-- The body of the inner loop of `buildOptimalPackingTable` for one pack
size: `tbl` holds the rows for totals strictly below `total`, all of which
are final when the outer loop reaches `total`; a lookup beyond `tbl`
returns the initialized row, exactly what the single mutable Go array
holds at indices the outer loop has not reached yet.  `c` is the row being
computed for `total`. -/
def stepCell (u : Nat) (tbl : List Cell) (total : Nat) (c : Cell) (packSize : Int) : Cell :=
  let predecessor : Int := (total : Int) - packSize
  if predecessor < 0 then c
  else
    let predCell := tbl.getD predecessor.toNat (unsetCell u)
    if predCell.minPacks = u then c
    else if predCell.minPacks + 1 < c.minPacks then
      ⟨predCell.minPacks + 1, predecessor, packSize⟩
    else c

/-- The DP fill of `buildOptimalPackingTable`, fused with the
initialization done by `newPackingTable`: the outer Go loop writes row
`total` exactly once, after all rows below `total` are final, and reads
only rows below `total` (or still-initialized rows, reproduced here by the
`getD` default), so the fill is the structural recursion below.
`buildTable sizes u n` is the table restricted to totals `0..n`. -/
def buildTable (sizes : List Int) (u : Nat) : Nat → List Cell
  | 0 => [⟨0, 0, 0⟩]
  | n + 1 =>
    let tbl := buildTable sizes u n
    tbl ++ [sizes.foldl (stepCell u tbl (n + 1)) (unsetCell u)]

/-- `packingTable` struct.  `cells` bundles the three aligned arrays. -/
structure PackingTable where
  itemsOrdered : Int
  sortedPackSizes : List Int
  fulfillmentLimit : Nat
  unreachablePacks : Nat
  cells : List Cell
deriving Repr

/-- The initialized arrays allocated by `newPackingTable`: every row is
the unset row except the base case at index 0. -/
def initCells (fulfillmentLimit u : Nat) : List Cell :=
  (List.replicate (fulfillmentLimit + 1) (unsetCell u)).set 0 ⟨0, 0, 0⟩

/-- `newPackingTable` from the source.  The caller (`Optimize`) always
passes a nonempty normalized slice, so the `headD`/`getLastD` defaults are
never used on that path. -/
def newPackingTable (itemsOrdered : Int) (sortedPackSizes : List Int) :
    Except OptError PackingTable :=
  let largestPackSize := sortedPackSizes.headD 0
  let smallestPackSize := sortedPackSizes.getLastD 0
  let fulfillmentLimit64 : Int := itemsOrdered + largestPackSize - 1
  if fulfillmentLimit64 ≤ 0 then .error .optimizationTooLarge
  else if fulfillmentLimit64 + 1 > maxTableEntries then .error .optimizationTooLarge
  else
    let fulfillmentLimit := fulfillmentLimit64.toNat
    let worstCasePacks := fulfillmentLimit / smallestPackSize.toNat
    .ok { itemsOrdered := itemsOrdered
          sortedPackSizes := sortedPackSizes
          fulfillmentLimit := fulfillmentLimit
          unreachablePacks := worstCasePacks + 1
          cells := initCells fulfillmentLimit (worstCasePacks + 1) }

/-- `buildOptimalPackingTable` from the source: fills the table rows for
every total `1..fulfillmentLimit` (see `buildTable`). -/
def buildOptimalPackingTable (t : PackingTable) : PackingTable :=
  { t with cells := buildTable t.sortedPackSizes t.unreachablePacks t.fulfillmentLimit }

/-- The scan loop of `chooseFulfillmentTotal`, starting at `total` and
running while `total < len(minPacks)`.  The loop advances `total` by one
each iteration, so it runs at most `cells.length - total` times; that
quantity is passed as explicit structural fuel (see
`chooseFulfillmentTotal`), making `fuel = 0` coincide exactly with the
loop's exit condition `total ≥ cells.length`. -/
def chooseFrom (cells : List Cell) (u : Nat) : Nat → Nat → Except OptError Nat
  | 0, _ => .error .noPackingPlan
  | fuel + 1, total =>
    if (cells.getD total (unsetCell u)).minPacks ≠ u then .ok total
    else chooseFrom cells u fuel (total + 1)

/-- `chooseFulfillmentTotal` from the source (on this path
`itemsOrdered ≥ 1`, so `toNat` is exact). -/
def chooseFulfillmentTotal (t : PackingTable) : Except OptError Nat :=
  chooseFrom t.cells t.unreachablePacks (t.cells.length - t.itemsOrdered.toNat)
    t.itemsOrdered.toNat

/-- The backtracking loop of `buildBreakdown`, returning the list of pack
sizes encountered on the walk (the source tallies them in a map; the tally
of a size is its count in this list).  The Go loop terminates because every
written row's `prevTotal` is strictly below its index; one unit of fuel per
possible hop makes that termination explicit, and running out of fuel — a
state the Go loop would only meet as an infinite loop on a corrupt table —
is reported as the same defensive reconstruction error. -/
def collectPacks (cells : List Cell) (u : Nat) : Nat → Nat → List Int → Except OptError (List Int)
  | _, 0, acc => .ok acc
  | 0, _ + 1, _ => .error .reconstructPlan
  | fuel + 1, total + 1, acc =>
    let c := cells.getD (total + 1) (unsetCell u)
    if c.prevPack ≤ 0 then .error .reconstructPlan
    else collectPacks cells u fuel c.prevTotal.toNat (c.prevPack :: acc)

/-- The final grouping loop of `buildBreakdown`: emit `(size, count)` in
the order of the normalized sizes, skipping zero counts. -/
def breakdownOf (sortedPackSizes : List Int) (walked : List Int) : List PackBreakdown :=
  sortedPackSizes.filterMap fun size =>
    if 0 < walked.count size then some ⟨size, walked.count size⟩ else none

/-- `buildBreakdown` from the source. -/
def buildBreakdown (t : PackingTable) (chosenTotal : Nat) :
    Except OptError (List PackBreakdown) :=
  match collectPacks t.cells t.unreachablePacks chosenTotal chosenTotal [] with
  | .error e => .error e
  | .ok walked => .ok (breakdownOf t.sortedPackSizes walked)

/-- `Optimize` from the source. -/
def Optimize (itemsOrdered : Int) (packSizes : List Int) : Except OptError Plan :=
  if itemsOrdered ≤ 0 then .error .invalidItemsOrdered
  else if itemsOrdered > maxInt32Value then .error .invalidItemsOrdered
  else
    match NormalizePackSizes packSizes with
    | .error e => .error e
    | .ok normalized =>
      match newPackingTable itemsOrdered normalized with
      | .error e => .error e
      | .ok t0 =>
        let t := buildOptimalPackingTable t0
        match chooseFulfillmentTotal t with
        | .error e => .error e
        | .ok chosenTotal =>
          match buildBreakdown t chosenTotal with
          | .error e => .error e
          | .ok breakdown =>
            .ok { itemsOrdered := itemsOrdered
                  totalItems := chosenTotal
                  totalPacks := (t.cells.getD chosenTotal (unsetCell t.unreachablePacks)).minPacks
                  packs := breakdown }

end PackOptimizer

namespace PackOptimizer

/-! Basic list-indexing helpers used to reason about the table. -/

theorem getD_append_left {α : Type} :
    ∀ (l1 l2 : List α) (i : Nat) (d : α), i < l1.length →
      (l1 ++ l2).getD i d = l1.getD i d := by
  intro l1
  induction l1 with
  | nil => intro l2 i d h; simp at h
  | cons a l ih =>
    intro l2 i d h
    cases i with
    | zero => rfl
    | succ j =>
      simp only [List.cons_append, List.getD_cons_succ]
      exact ih l2 j d (by simpa using h)

theorem getD_of_length_le {α : Type} :
    ∀ (l : List α) (i : Nat) (d : α), l.length ≤ i → l.getD i d = d := by
  intro l
  induction l with
  | nil => intro i d _; cases i <;> rfl
  | cons a l ih =>
    intro i d h
    cases i with
    | zero => simp at h
    | succ j =>
      simp only [List.getD_cons_succ]
      exact ih j d (by simpa using h)

theorem getD_concat_self {α : Type} (l : List α) (x d : α) :
    (l ++ [x]).getD l.length d = x := by
  induction l with
  | nil => rfl
  | cons a l ih => simp only [List.cons_append, List.length_cons, List.getD_cons_succ]; exact ih

/-! Structure of the DP table. -/

theorem buildTable_length (sizes : List Int) (u : Nat) :
    ∀ n, (buildTable sizes u n).length = n + 1 := by
  intro n
  induction n with
  | zero => rfl
  | succ m ih => simp [buildTable, ih]

/-- The row of the finished table at index `total` (rows are final as soon
as the outer fill loop passes them, so the row at `total` in any table
covering at least `total` equals the last row of `buildTable _ _ total`). -/
def diag (sizes : List Int) (u total : Nat) : Cell :=
  (buildTable sizes u total).getD total (unsetCell u)

theorem diag_zero (sizes : List Int) (u : Nat) : diag sizes u 0 = ⟨0, 0, 0⟩ := rfl

theorem diag_succ (sizes : List Int) (u n : Nat) :
    diag sizes u (n + 1) =
      sizes.foldl (stepCell u (buildTable sizes u n) (n + 1)) (unsetCell u) := by
  show (buildTable sizes u n ++ [_]).getD (n + 1) (unsetCell u) = _
  have hl := buildTable_length sizes u n
  rw [← hl, getD_concat_self]

theorem buildTable_getD (sizes : List Int) (u : Nat) :
    ∀ n i, i ≤ n → (buildTable sizes u n).getD i (unsetCell u) = diag sizes u i := by
  intro n
  induction n with
  | zero => intro i h; interval_cases i; rfl
  | succ m ih =>
    intro i h
    rcases Nat.lt_or_ge i (m + 1) with hlt | hge
    · show (buildTable sizes u m ++ [_]).getD i (unsetCell u) = _
      rw [getD_append_left _ _ _ _ (by rw [buildTable_length]; omega)]
      exact ih i (by omega)
    · have : i = m + 1 := by omega
      subst this
      rfl

/-! The specification predicate: a total is reachable in `k` packs when it
is the sum of `k` values drawn (with repetition) from the pack sizes. -/

inductive ReachableIn (sizes : List Int) : Nat → Int → Prop where
  | zero : ReachableIn sizes 0 0
  | step {k : Nat} {n s : Int} :
      s ∈ sizes → ReachableIn sizes k n → ReachableIn sizes (k + 1) (n + s)

/-- A total is reachable when some non-negative integer combination of the
pack sizes sums to it. -/
def Reachable (sizes : List Int) (n : Int) : Prop := ∃ k, ReachableIn sizes k n

theorem ReachableIn.nonneg {sizes : List Int} {k : Nat} {n : Int}
    (hpos : ∀ s ∈ sizes, 0 < s) (h : ReachableIn sizes k n) : 0 ≤ n := by
  induction h with
  | zero => omega
  | step hs _ ih => have := hpos _ hs; omega

theorem ReachableIn.mul_le {sizes : List Int} {sm : Int} {k : Nat} {n : Int}
    (hsm : ∀ s ∈ sizes, sm ≤ s) (h : ReachableIn sizes k n) : (k : Int) * sm ≤ n := by
  induction h with
  | zero => simp
  | step hs _ ih =>
    have := hsm _ hs
    push_cast
    nlinarith [ih]

theorem ReachableIn.le_div {sizes : List Int} {sm : Int} {k : Nat} {n : Int}
    (hsm : ∀ s ∈ sizes, sm ≤ s) (hsmpos : 0 < sm)
    (h : ReachableIn sizes k n) : k ≤ n.toNat / sm.toNat := by
  have hmul := h.mul_le hsm
  have hn : (0 : Int) ≤ n := le_trans (mul_nonneg (Int.natCast_nonneg k) hsmpos.le) hmul
  rw [Nat.le_div_iff_mul_le (show 0 < sm.toNat by omega)]
  zify
  rw [Int.toNat_of_nonneg hsmpos.le, Int.toNat_of_nonneg hn]
  exact hmul

theorem reachableIn_congr {l1 l2 : List Int} {k : Nat} {n : Int}
    (hmem : ∀ v : Int, v ∈ l1 ↔ v ∈ l2) (h : ReachableIn l1 k n) :
    ReachableIn l2 k n := by
  induction h with
  | zero => exact .zero
  | step hs _ ih => exact .step ((hmem _).1 hs) ih

theorem reachableIn_mul {sizes : List Int} {L : Int} (hL : L ∈ sizes) :
    ∀ k : Nat, ReachableIn sizes k ((k : Int) * L) := by
  intro k
  induction k with
  | zero =>
    have h0 : ((0 : Nat) : Int) * L = 0 := by simp
    exact h0 ▸ ReachableIn.zero
  | succ m ih =>
    have := ReachableIn.step hL ih
    have harith : ((m : Int) * L + L) = ((m + 1 : Nat) : Int) * L := by push_cast; ring
    rwa [harith] at this

theorem reachableIn_sum {sizes : List Int} :
    ∀ w : List Int, (∀ x ∈ w, x ∈ sizes) → ReachableIn sizes w.length w.sum := by
  intro w
  induction w with
  | nil => intro _; exact .zero
  | cons x w' ih =>
    intro h
    have hx : x ∈ sizes := h x (by simp)
    have hw' := ih (fun y hy => h y (by simp [hy]))
    have := ReachableIn.step hx hw'
    simpa [List.sum_cons, add_comm] using this

end PackOptimizer

namespace PackOptimizer

/-! Analysis of the inner loop over pack sizes: `candOK` says the pack size
yields a usable predecessor (in range and reachable), `candVal` is the
candidate pack count it offers. -/

def candOK (tbl : List Cell) (u total : Nat) (s : Int) : Prop :=
  ¬((total : Int) - s < 0) ∧
    (tbl.getD ((total : Int) - s).toNat (unsetCell u)).minPacks ≠ u

def candVal (tbl : List Cell) (u total : Nat) (s : Int) : Nat :=
  (tbl.getD ((total : Int) - s).toNat (unsetCell u)).minPacks + 1

instance (tbl : List Cell) (u total : Nat) (s : Int) :
    Decidable (candOK tbl u total s) := by
  unfold candOK
  infer_instance

theorem stepCell_eq (u : Nat) (tbl : List Cell) (total : Nat) (c : Cell) (s : Int) :
    stepCell u tbl total c s =
      if candOK tbl u total s ∧ candVal tbl u total s < c.minPacks
      then ⟨candVal tbl u total s, (total : Int) - s, s⟩ else c := by
  simp only [stepCell, candOK, candVal]
  split_ifs <;> first | rfl | (exfalso; tauto)

theorem stepCell_cases (u : Nat) (tbl : List Cell) (total : Nat) (c : Cell) (s : Int) :
    stepCell u tbl total c s = c ∨
      (candOK tbl u total s ∧ candVal tbl u total s < c.minPacks ∧
        stepCell u tbl total c s = ⟨candVal tbl u total s, (total : Int) - s, s⟩) := by
  rw [stepCell_eq]
  split_ifs with h
  · exact Or.inr ⟨h.1, h.2, rfl⟩
  · exact Or.inl rfl

theorem stepCell_minPacks_le (u : Nat) (tbl : List Cell) (total : Nat) (c : Cell) (s : Int) :
    (stepCell u tbl total c s).minPacks ≤ c.minPacks := by
  rcases stepCell_cases u tbl total c s with h | ⟨_, hlt, h⟩
  · rw [h]
  · rw [h]; exact hlt.le

theorem stepCell_le_cand (u : Nat) (tbl : List Cell) (total : Nat) (c : Cell) (s : Int)
    (h : candOK tbl u total s) :
    (stepCell u tbl total c s).minPacks ≤ candVal tbl u total s := by
  rw [stepCell_eq]
  split_ifs with h2
  · exact le_rfl
  · simp only [not_and, not_lt] at h2
    exact h2 h

theorem foldl_minPacks_le (u : Nat) (tbl : List Cell) (total : Nat) :
    ∀ (l : List Int) (c : Cell),
      (l.foldl (stepCell u tbl total) c).minPacks ≤ c.minPacks := by
  intro l
  induction l with
  | nil => intro c; exact le_rfl
  | cons a l' ih =>
    intro c
    exact le_trans (ih (stepCell u tbl total c a)) (stepCell_minPacks_le u tbl total c a)

theorem foldl_le_cand (u : Nat) (tbl : List Cell) (total : Nat) :
    ∀ (l : List Int) (c : Cell) (s : Int), s ∈ l → candOK tbl u total s →
      (l.foldl (stepCell u tbl total) c).minPacks ≤ candVal tbl u total s := by
  intro l
  induction l with
  | nil => intro c s hs; simp at hs
  | cons a l' ih =>
    intro c s hs hOK
    rcases List.mem_cons.mp hs with rfl | hs'
    · exact le_trans (foldl_minPacks_le u tbl total l' _)
        (stepCell_le_cand u tbl total c s hOK)
    · exact ih _ s hs' hOK

theorem foldl_origin (u : Nat) (tbl : List Cell) (total : Nat) :
    ∀ (l : List Int) (c : Cell),
      l.foldl (stepCell u tbl total) c = c ∨
        ∃ s ∈ l, candOK tbl u total s ∧
          l.foldl (stepCell u tbl total) c = ⟨candVal tbl u total s, (total : Int) - s, s⟩ ∧
          candVal tbl u total s < c.minPacks := by
  intro l
  induction l with
  | nil => intro c; exact Or.inl rfl
  | cons a l' ih =>
    intro c
    rcases stepCell_cases u tbl total c a with hstep | ⟨hOK, hlt, hstep⟩
    · rcases ih (stepCell u tbl total c a) with h | ⟨s, hs, hOK', heq, hlt'⟩
      · refine Or.inl ?_
        rw [List.foldl_cons, hstep]
        rwa [hstep] at h
      · refine Or.inr ⟨s, List.mem_cons_of_mem _ hs, hOK', ?_, ?_⟩
        · rw [List.foldl_cons]; exact heq
        · rw [hstep] at hlt'; exact hlt'
    · rcases ih (stepCell u tbl total c a) with h | ⟨s, hs, hOK', heq, hlt'⟩
      · refine Or.inr ⟨a, List.mem_cons_self a l', hOK, ?_, hlt⟩
        rw [List.foldl_cons, h, hstep]
      · refine Or.inr ⟨s, List.mem_cons_of_mem _ hs, hOK', ?_, ?_⟩
        · rw [List.foldl_cons]; exact heq
        · rw [hstep] at hlt'
          exact lt_trans hlt' hlt

theorem foldl_tie (u : Nat) (tbl : List Cell) (total : Nat) :
    ∀ (l : List Int) (c : Cell), l.Pairwise (· > ·) →
      (∀ q ∈ l, candOK tbl u total q → candVal tbl u total q < u) →
      (c.minPacks = u ∨ (c.minPacks < u ∧ ∀ x ∈ l, x < c.prevPack)) →
      ∀ q ∈ l, candOK tbl u total q →
        candVal tbl u total q = (l.foldl (stepCell u tbl total) c).minPacks →
        q ≤ (l.foldl (stepCell u tbl total) c).prevPack := by
  intro l
  induction l with
  | nil => intro c _ _ _ q hq; simp at hq
  | cons a l' ih =>
    intro c hl hcand hc q hq hqOK hqEq
    have hl' : l'.Pairwise (· > ·) := hl.of_cons
    have hagt : ∀ x ∈ l', x < a := fun x hx => (List.pairwise_cons.mp hl).1 x hx
    have hcand' : ∀ q ∈ l', candOK tbl u total q → candVal tbl u total q < u :=
      fun q hq => hcand q (List.mem_cons_of_mem _ hq)
    rcases stepCell_cases u tbl total c a with hstep | ⟨hOKa, hlta, hstep⟩
    · -- the head pack size did not update the running cell
      rcases List.mem_cons.mp hq with rfl | hq'
      · -- q = a: its candidate was not strictly better, so it cannot equal the
        -- final minimum unless the final cell keeps a larger prevPack
        have haU : candVal tbl u total q < u := hcand q (List.mem_cons_self q l') hqOK
        have hge : c.minPacks ≤ candVal tbl u total q := by
          by_contra hcon
          rw [stepCell_eq] at hstep
          rw [if_pos ⟨hqOK, by omega⟩] at hstep
          have := congrArg Cell.minPacks hstep
          simp at this
          omega
        rcases hc with hcu | ⟨hclt, hcall⟩
        · omega
        · rw [List.foldl_cons, hstep] at hqEq ⊢
          rcases foldl_origin u tbl total l' c with h | ⟨s, hs, _, heq, hlt'⟩
          · rw [h]
            exact le_of_lt (hcall q (List.mem_cons_self q l'))
          · rw [heq] at hqEq
            simp at hqEq
            omega
      · -- q in the tail: induction hypothesis with the unchanged cell
        rw [List.foldl_cons, hstep] at hqEq ⊢
        refine ih c hl' hcand' ?_ q hq' hqOK hqEq
        rcases hc with hcu | ⟨hclt, hcall⟩
        · exact Or.inl hcu
        · exact Or.inr ⟨hclt, fun x hx => hcall x (List.mem_cons_of_mem _ hx)⟩
    · -- the head pack size took over the running cell
      have haU : candVal tbl u total a < u := hcand a (List.mem_cons_self a l') hOKa
      have hc1 : (stepCell u tbl total c a).minPacks = candVal tbl u total a := by
        rw [hstep]
      have hp1 : (stepCell u tbl total c a).prevPack = a := by rw [hstep]
      rcases List.mem_cons.mp hq with rfl | hq'
      · rw [List.foldl_cons] at hqEq ⊢
        rcases foldl_origin u tbl total l' (stepCell u tbl total c q) with h | ⟨s, hs, _, heq, hlt'⟩
        · rw [h, hp1]
        · rw [heq] at hqEq
          simp at hqEq
          rw [hc1] at hlt'
          omega
      · rw [List.foldl_cons] at hqEq ⊢
        refine ih (stepCell u tbl total c a) hl' hcand' ?_ q hq' hqOK hqEq
        exact Or.inr ⟨by omega, fun x hx => by rw [hp1]; exact hagt x hx⟩

end PackOptimizer

namespace PackOptimizer

/-! Bridging the inner-loop candidate view with the finished rows of the
table: at outer index `n + 1` the loop consults `buildTable sizes u n`,
whose entries agree with `diag` up to index `n` and default to the
initialized row beyond it. -/

theorem candOK_elim (sizes : List Int) (u n : Nat) (s : Int)
    (h : candOK (buildTable sizes u n) u (n + 1) s) :
    0 < s ∧ s ≤ ((n + 1 : Nat) : Int) ∧ (((n + 1 : Nat) : Int) - s).toNat ≤ n ∧
      (diag sizes u ((((n + 1 : Nat) : Int)) - s).toNat).minPacks ≠ u ∧
      candVal (buildTable sizes u n) u (n + 1) s =
        (diag sizes u ((((n + 1 : Nat) : Int)) - s).toNat).minPacks + 1 := by
  obtain ⟨h1, h2⟩ := h
  have hlen := buildTable_length sizes u n
  by_cases hle : ((((n + 1 : Nat) : Int)) - s).toNat ≤ n
  · have hg := buildTable_getD sizes u n _ hle
    refine ⟨by omega, by omega, hle, ?_, ?_⟩
    · rw [← hg]; exact h2
    · unfold candVal; rw [hg]
  · exfalso
    have hout : (buildTable sizes u n).getD ((((n + 1 : Nat) : Int)) - s).toNat (unsetCell u) =
        unsetCell u := getD_of_length_le _ _ _ (by omega)
    rw [hout] at h2
    exact h2 rfl

theorem candOK_intro (sizes : List Int) (u n : Nat) (s : Int)
    (h1 : 0 < s) (h2 : s ≤ ((n + 1 : Nat) : Int))
    (h3 : (diag sizes u ((((n + 1 : Nat) : Int)) - s).toNat).minPacks ≠ u) :
    candOK (buildTable sizes u n) u (n + 1) s := by
  refine ⟨by omega, ?_⟩
  rw [buildTable_getD sizes u n _ (by omega)]
  exact h3

theorem candVal_eq (sizes : List Int) (u n : Nat) (s : Int)
    (h1 : 0 < s) (h2 : s ≤ ((n + 1 : Nat) : Int)) :
    candVal (buildTable sizes u n) u (n + 1) s =
      (diag sizes u ((((n + 1 : Nat) : Int)) - s).toNat).minPacks + 1 := by
  unfold candVal
  rw [buildTable_getD sizes u n _ (by omega)]

theorem ReachableIn.pos_elim {sizes : List Int} {k : Nat} {n : Int}
    (h : ReachableIn sizes k n) (hn : 0 < n) :
    ∃ k' s m, k = k' + 1 ∧ s ∈ sizes ∧ ReachableIn sizes k' m ∧ n = m + s := by
  cases h with
  | zero => omega
  | step hs h' => exact ⟨_, _, _, rfl, hs, h', rfl⟩

/-- The central invariant of the filled table: at every total within range,
`minPacks` is sound (a reachable-in witness exists at exactly that count),
complete (no combination uses fewer packs), and the backtracking pointers
of every reachable positive total record a valid predecessor step. -/
theorem diag_invariant (sizes : List Int) (limit : Nat) (sm : Int) (u : Nat)
    (hpos : ∀ s ∈ sizes, 0 < s)
    (hsm : ∀ s ∈ sizes, sm ≤ s)
    (hsmpos : 0 < sm)
    (hu : u = limit / sm.toNat + 1) :
    ∀ total, total ≤ limit →
      ((diag sizes u total).minPacks ≠ u →
          ReachableIn sizes (diag sizes u total).minPacks (total : Int)) ∧
      (∀ k, ReachableIn sizes k (total : Int) → (diag sizes u total).minPacks ≤ k) ∧
      (0 < total → (diag sizes u total).minPacks ≠ u →
        ∃ s ∈ sizes, 0 < s ∧ s ≤ (total : Int) ∧
          (diag sizes u total).prevPack = s ∧
          (diag sizes u total).prevTotal = (total : Int) - s ∧
          (diag sizes u (total - s.toNat)).minPacks ≠ u ∧
          (diag sizes u total).minPacks = (diag sizes u (total - s.toNat)).minPacks + 1) := by
  intro total
  induction total using Nat.strong_induction_on with
  | _ total ih =>
    intro hlim
    cases total with
    | zero =>
      refine ⟨?_, ?_, ?_⟩
      · intro _
        rw [diag_zero]
        show ReachableIn sizes 0 ((0 : Nat) : Int)
        have h0 : ((0 : Nat) : Int) = 0 := by simp
        exact h0 ▸ ReachableIn.zero
      · intro k _
        rw [diag_zero]
        exact Nat.zero_le k
      · intro h; omega
    | succ n =>
      have hrec := diag_succ sizes u n
      have hsmN : 0 < sm.toNat := by omega
      -- every admissible candidate value stays strictly below the sentinel
      have hcand : ∀ q ∈ sizes, candOK (buildTable sizes u n) u (n + 1) q →
          candVal (buildTable sizes u n) u (n + 1) q < u := by
        intro q hq hOK
        obtain ⟨hq0, hqle, hple, hpne, hval⟩ := candOK_elim sizes u n q hOK
        have hreach := (ih _ (by omega) (by omega)).1 hpne
        have hdivb := ReachableIn.le_div hsm hsmpos hreach
        simp only [Int.toNat_natCast] at hdivb
        have hq_sm : sm ≤ q := hsm q hq
        have hstep : ((((n + 1 : Nat) : Int)) - q).toNat / sm.toNat + 1 ≤ (n + 1) / sm.toNat := by
          have hsmle : sm.toNat ≤ n + 1 := by omega
          have hdiv : (n + 1) / sm.toNat = ((n + 1) - sm.toNat) / sm.toNat + 1 :=
            Nat.div_eq_sub_div hsmN hsmle
          rw [hdiv]
          exact Nat.add_le_add_right (Nat.div_le_div_right (by omega)) 1
        have hmono : (n + 1) / sm.toNat ≤ limit / sm.toNat := Nat.div_le_div_right hlim
        omega
      refine ⟨?_, ?_, ?_⟩
      · -- soundness of minPacks
        intro hne
        rw [hrec] at hne ⊢
        rcases foldl_origin u (buildTable sizes u n) (n + 1) sizes (unsetCell u) with
          h | ⟨s, hs, hOK, heq, _⟩
        · rw [h] at hne; exact absurd rfl hne
        · rw [heq]
          obtain ⟨hs0, hsle, hple, hpne, hval⟩ := candOK_elim sizes u n s hOK
          show ReachableIn sizes (candVal (buildTable sizes u n) u (n + 1) s) _
          rw [hval]
          have hreach := (ih _ (by omega) (by omega)).1 hpne
          have hstep := ReachableIn.step hs hreach
          have harith : (((((n + 1 : Nat) : Int)) - s).toNat : Int) + s = ((n + 1 : Nat) : Int) := by
            omega
          rwa [harith] at hstep
      · -- completeness of minPacks
        intro k hk
        obtain ⟨k', s, m, rfl, hs, hk', heqn⟩ :=
          hk.pos_elim (by exact_mod_cast Nat.succ_pos n)
        have hm0 : 0 ≤ m := hk'.nonneg hpos
        have hs0 : 0 < s := hpos s hs
        have hmlt : m.toNat ≤ n := by omega
        have hmcast : ((m.toNat : Nat) : Int) = m := Int.toNat_of_nonneg hm0
        have hk'' : ReachableIn sizes k' ((m.toNat : Nat) : Int) := by rwa [hmcast]
        have hble := (ih m.toNat (by omega) (by omega)).2.1 k' hk''
        have hk'div : k' ≤ m.toNat / sm.toNat := by
          have := ReachableIn.le_div hsm hsmpos hk'
          exact this
        have hne : (diag sizes u m.toNat).minPacks ≠ u := by
          have : m.toNat / sm.toNat ≤ limit / sm.toNat := Nat.div_le_div_right (by omega)
          omega
        have hidx : ((((n + 1 : Nat) : Int)) - s).toNat = m.toNat := by omega
        have hOK : candOK (buildTable sizes u n) u (n + 1) s :=
          candOK_intro sizes u n s hs0 (by omega) (by rw [hidx]; exact hne)
        have hle := foldl_le_cand u (buildTable sizes u n) (n + 1) sizes (unsetCell u) s hs hOK
        have hval := candVal_eq sizes u n s hs0 (by omega)
        rw [hrec]
        rw [hval, hidx] at hle
        omega
      · -- validity of the backtracking pointers
        intro _ hne
        rw [hrec] at hne ⊢
        rcases foldl_origin u (buildTable sizes u n) (n + 1) sizes (unsetCell u) with
          h | ⟨s, hs, hOK, heq, _⟩
        · rw [h] at hne; exact absurd rfl hne
        · obtain ⟨hs0, hsle, hple, hpne, hval⟩ := candOK_elim sizes u n s hOK
          have hidx : ((((n + 1 : Nat) : Int)) - s).toNat = n + 1 - s.toNat := by omega
          refine ⟨s, hs, hs0, hsle, ?_, ?_, ?_, ?_⟩
          · rw [heq]
          · rw [heq]
          · rw [← hidx]; exact hpne
          · rw [heq]
            show candVal (buildTable sizes u n) u (n + 1) s = _
            rw [hval, hidx]

end PackOptimizer

namespace PackOptimizer

/-- Any combination reaching a total within range uses fewer packs than
the sentinel. -/
theorem reachable_count_lt_u {sizes : List Int} {limit : Nat} {sm : Int} {u k : Nat}
    {m : Int}
    (hsm : ∀ s ∈ sizes, sm ≤ s) (hsmpos : 0 < sm)
    (hu : u = limit / sm.toNat + 1)
    (hk : ReachableIn sizes k m) (hm : m ≤ (limit : Int)) : k < u := by
  have hdiv := ReachableIn.le_div hsm hsmpos hk
  have hmono : m.toNat / sm.toNat ≤ limit / sm.toNat := Nat.div_le_div_right (by omega)
  omega

/-- The sentinel test is exact: an entry differs from the sentinel exactly
when its total is reachable. -/
theorem diag_reachable_iff (sizes : List Int) (limit : Nat) (sm : Int) (u : Nat)
    (hpos : ∀ s ∈ sizes, 0 < s)
    (hsm : ∀ s ∈ sizes, sm ≤ s)
    (hsmpos : 0 < sm)
    (hu : u = limit / sm.toNat + 1)
    (total : Nat) (htot : total ≤ limit) :
    (diag sizes u total).minPacks ≠ u ↔ Reachable sizes (total : Int) := by
  constructor
  · intro hne
    exact ⟨_, (diag_invariant sizes limit sm u hpos hsm hsmpos hu total htot).1 hne⟩
  · rintro ⟨k, hk⟩
    have hle := (diag_invariant sizes limit sm u hpos hsm hsmpos hu total htot).2.1 k hk
    have hklt : k < u := reachable_count_lt_u hsm hsmpos hu hk (by omega)
    omega

/-- Reachable entries stay at or below the worst-case pack count
`total / smallest`, hence strictly below the sentinel. -/
theorem diag_minPacks_bound (sizes : List Int) (limit : Nat) (sm : Int) (u : Nat)
    (hpos : ∀ s ∈ sizes, 0 < s)
    (hsm : ∀ s ∈ sizes, sm ≤ s)
    (hsmpos : 0 < sm)
    (hu : u = limit / sm.toNat + 1)
    (total : Nat) (htot : total ≤ limit)
    (hne : (diag sizes u total).minPacks ≠ u) :
    (diag sizes u total).minPacks ≤ total / sm.toNat := by
  have hreach := (diag_invariant sizes limit sm u hpos hsm hsmpos hu total htot).1 hne
  have := ReachableIn.le_div hsm hsmpos hreach
  simpa using this

/-- Candidates offered by the inner loop are always strictly below the
sentinel (so a candidate with value `u` can never mask unreachability). -/
theorem cand_lt_u (sizes : List Int) (limit : Nat) (sm : Int) (u : Nat)
    (hpos : ∀ s ∈ sizes, 0 < s)
    (hsm : ∀ s ∈ sizes, sm ≤ s)
    (hsmpos : 0 < sm)
    (hu : u = limit / sm.toNat + 1)
    (n : Nat) (hn1 : n + 1 ≤ limit) :
    ∀ q ∈ sizes, candOK (buildTable sizes u n) u (n + 1) q →
      candVal (buildTable sizes u n) u (n + 1) q < u := by
  intro q hq hOK
  obtain ⟨hq0, hqle, hple, hpne, hval⟩ := candOK_elim sizes u n q hOK
  have hbound := diag_minPacks_bound sizes limit sm u hpos hsm hsmpos hu _ (by omega) hpne
  have hq_sm : sm ≤ q := hsm q hq
  have hsmN : 0 < sm.toNat := by omega
  have hstep : ((((n + 1 : Nat) : Int)) - q).toNat / sm.toNat + 1 ≤ (n + 1) / sm.toNat := by
    have hsmle : sm.toNat ≤ n + 1 := by omega
    have hdiv : (n + 1) / sm.toNat = ((n + 1) - sm.toNat) / sm.toNat + 1 :=
      Nat.div_eq_sub_div hsmN hsmle
    rw [hdiv]
    exact Nat.add_le_add_right (Nat.div_le_div_right (by omega)) 1
  have hmono : (n + 1) / sm.toNat ≤ limit / sm.toNat := Nat.div_le_div_right hn1
  omega

/-- The tie-break policy: no pack size strictly larger than the recorded
`prevPack` also realizes the minimal pack count for this total. -/
theorem diag_tiebreak (sizes : List Int) (limit : Nat) (sm : Int) (u : Nat)
    (hpos : ∀ s ∈ sizes, 0 < s)
    (hsm : ∀ s ∈ sizes, sm ≤ s)
    (hsmpos : 0 < sm)
    (hu : u = limit / sm.toNat + 1)
    (hdesc : sizes.Pairwise (· > ·))
    (total : Nat) (htot : total ≤ limit) (h0 : 0 < total) :
    ∀ q ∈ sizes, (diag sizes u total).prevPack < q →
      ¬(q ≤ (total : Int) ∧ (diag sizes u (total - q.toNat)).minPacks ≠ u ∧
        (diag sizes u (total - q.toNat)).minPacks + 1 = (diag sizes u total).minPacks) := by
  obtain ⟨n, rfl⟩ : ∃ n, total = n + 1 := ⟨total - 1, by omega⟩
  intro q hq hlt hcon
  obtain ⟨hqle, hpne, hpeq⟩ := hcon
  have hq0 : 0 < q := hpos q hq
  have hidx : ((((n + 1 : Nat) : Int)) - q).toNat = n + 1 - q.toNat := by omega
  have hOK : candOK (buildTable sizes u n) u (n + 1) q :=
    candOK_intro sizes u n q hq0 (by omega) (by rw [hidx]; exact hpne)
  have hval := candVal_eq sizes u n q hq0 (by omega)
  have hrec := diag_succ sizes u n
  have hEq : candVal (buildTable sizes u n) u (n + 1) q =
      (sizes.foldl (stepCell u (buildTable sizes u n) (n + 1)) (unsetCell u)).minPacks := by
    rw [hval, hidx, ← hrec]
    exact hpeq
  have htie := foldl_tie u (buildTable sizes u n) (n + 1) sizes (unsetCell u)
    hdesc (cand_lt_u sizes limit sm u hpos hsm hsmpos hu n htot) (Or.inl rfl) q hq hOK hEq
  rw [← hrec] at htie
  omega

end PackOptimizer

namespace PackOptimizer

/-! The total-selection scan. -/

theorem chooseFrom_ok_spec (cells : List Cell) (u : Nat) :
    ∀ fuel start res, chooseFrom cells u fuel start = .ok res →
      start ≤ res ∧ res < start + fuel ∧
      (cells.getD res (unsetCell u)).minPacks ≠ u ∧
      ∀ j, start ≤ j → j < res → (cells.getD j (unsetCell u)).minPacks = u := by
  intro fuel
  induction fuel with
  | zero => intro start res h; simp [chooseFrom] at h
  | succ f ih =>
    intro start res h
    simp only [chooseFrom] at h
    by_cases hc : (cells.getD start (unsetCell u)).minPacks ≠ u
    · rw [if_pos hc] at h
      have heq : start = res := by injection h
      subst heq
      exact ⟨le_rfl, by omega, hc, fun j hj1 hj2 => by omega⟩
    · rw [if_neg hc] at h
      obtain ⟨h1, h2, h3, h4⟩ := ih (start + 1) res h
      simp only [not_not] at hc
      refine ⟨by omega, by omega, h3, ?_⟩
      intro j hj1 hj2
      rcases Nat.eq_or_lt_of_le hj1 with rfl | hlt
      · exact hc
      · exact h4 j (by omega) hj2

theorem chooseFrom_ok_of_reachable (cells : List Cell) (u : Nat) :
    ∀ fuel start t, start ≤ t → t < start + fuel →
      (cells.getD t (unsetCell u)).minPacks ≠ u →
      ∃ res, chooseFrom cells u fuel start = .ok res ∧ res ≤ t := by
  intro fuel
  induction fuel with
  | zero => intro start t h1 h2 h3; omega
  | succ f ih =>
    intro start t h1 h2 h3
    by_cases hc : (cells.getD start (unsetCell u)).minPacks ≠ u
    · refine ⟨start, ?_, h1⟩
      simp only [chooseFrom]
      rw [if_pos hc]
    · have hst : start ≠ t := fun he => hc (he ▸ h3)
      obtain ⟨res, hres, hle⟩ := ih (start + 1) t (by omega) (by omega) h3
      refine ⟨res, ?_, hle⟩
      simp only [chooseFrom]
      rw [if_neg hc]
      exact hres

/-! The backtracking walk: starting from a reachable total within range, it
returns (prepended to the accumulator) a list of pack sizes that sums to
the total, one entry per pack of the optimal combination. -/

theorem collectPacks_spec (sizes : List Int) (limit : Nat) (sm : Int) (u : Nat)
    (hpos : ∀ s ∈ sizes, 0 < s)
    (hsm : ∀ s ∈ sizes, sm ≤ s)
    (hsmpos : 0 < sm)
    (hu : u = limit / sm.toNat + 1) :
    ∀ total, total ≤ limit → (diag sizes u total).minPacks ≠ u →
      ∀ fuel, (diag sizes u total).minPacks ≤ fuel → ∀ acc,
        ∃ w, collectPacks (buildTable sizes u limit) u fuel total acc = .ok (w ++ acc) ∧
          w.length = (diag sizes u total).minPacks ∧
          (∀ x ∈ w, x ∈ sizes) ∧ w.sum = (total : Int) := by
  intro total
  induction total using Nat.strong_induction_on with
  | _ total ihtot =>
    intro hlim hne fuel hfuel acc
    cases total with
    | zero =>
      refine ⟨[], ?_, by simp [diag_zero], by simp, by simp⟩
      cases fuel <;> rfl
    | succ n =>
      obtain ⟨s, hs, hs0, hsle, hpp, hpt, hpne, hpeq⟩ :=
        (diag_invariant sizes limit sm u hpos hsm hsmpos hu (n + 1) hlim).2.2
          (Nat.succ_pos n) hne
      have hmin1 : 1 ≤ (diag sizes u (n + 1)).minPacks := by omega
      obtain ⟨f, rfl⟩ : ∃ f, fuel = f + 1 := ⟨fuel - 1, by omega⟩
      have hcell : (buildTable sizes u limit).getD (n + 1) (unsetCell u) =
          diag sizes u (n + 1) := buildTable_getD sizes u limit (n + 1) hlim
      have hidx : (diag sizes u (n + 1)).prevTotal.toNat = n + 1 - s.toNat := by
        rw [hpt]; omega
      have hstep : collectPacks (buildTable sizes u limit) u (f + 1) (n + 1) acc =
          collectPacks (buildTable sizes u limit) u f (n + 1 - s.toNat) (s :: acc) := by
        simp only [collectPacks, hcell]
        rw [if_neg (by rw [hpp]; omega), hidx, hpp]
      obtain ⟨w', hw'eq, hw'len, hw'mem, hw'sum⟩ :=
        ihtot (n + 1 - s.toNat) (by omega) (by omega) hpne f (by omega) (s :: acc)
      refine ⟨w' ++ [s], ?_, ?_, ?_, ?_⟩
      · rw [hstep, hw'eq, List.append_assoc]
        rfl
      · rw [hpeq]
        simp [hw'len]
      · intro x hx
        rcases List.mem_append.mp hx with hx' | hx'
        · exact hw'mem x hx'
        · rw [List.mem_singleton.mp hx']; exact hs
      · rw [List.sum_append, hw'sum]
        simp
        omega

end PackOptimizer

namespace PackOptimizer

/-! Counting identities relating a walked list of pack sizes to its
grouped breakdown. -/

theorem count_filter_ne_eq (a x : Int) (hx : x ≠ a) :
    ∀ w : List Int, (w.filter (fun y => y ≠ a)).count x = w.count x := by
  intro w
  induction w with
  | nil => rfl
  | cons y w ih =>
    by_cases hy : y = a
    · subst hy
      rw [List.filter_cons_of_neg (by simp)]
      rw [ih, List.count_cons]
      have : ¬(y == x) := by simpa using fun he => hx he.symm
      simp [this]
    · rw [List.filter_cons_of_pos (by simpa using hy)]
      rw [List.count_cons, List.count_cons, ih]

theorem sum_count_filter (a : Int) :
    ∀ w : List Int, w.sum = a * (w.count a : Int) + (w.filter (fun y => y ≠ a)).sum := by
  intro w
  induction w with
  | nil => simp
  | cons y w ih =>
    by_cases hy : y = a
    · subst hy
      rw [List.filter_cons_of_neg (by simp), List.sum_cons, List.count_cons_self, ih]
      push_cast
      ring
    · rw [List.filter_cons_of_pos (by simpa using hy), List.sum_cons, List.sum_cons,
        List.count_cons_of_ne (Ne.symm hy), ih]
      ring

theorem length_count_filter (a : Int) :
    ∀ w : List Int, w.length = w.count a + (w.filter (fun y => y ≠ a)).length := by
  intro w
  induction w with
  | nil => rfl
  | cons y w ih =>
    by_cases hy : y = a
    · subst hy
      rw [List.filter_cons_of_neg (by simp), List.length_cons, List.count_cons_self, ih]
      omega
    · rw [List.filter_cons_of_pos (by simpa using hy), List.length_cons, List.length_cons,
        List.count_cons_of_ne (Ne.symm hy), ih]
      omega

theorem breakdownOf_cons_pos {a : Int} {w rest : List Int} (hc : 0 < w.count a) :
    breakdownOf (a :: rest) w = ⟨a, w.count a⟩ :: breakdownOf rest w := by
  unfold breakdownOf
  rw [List.filterMap_cons, if_pos hc]

theorem breakdownOf_cons_neg {a : Int} {w rest : List Int} (hc : ¬0 < w.count a) :
    breakdownOf (a :: rest) w = breakdownOf rest w := by
  unfold breakdownOf
  rw [List.filterMap_cons, if_neg hc]

theorem breakdownOf_mem {sizes w : List Int} {pb : PackBreakdown} :
    pb ∈ breakdownOf sizes w ↔ ∃ s ∈ sizes, 0 < w.count s ∧ pb = ⟨s, w.count s⟩ := by
  unfold breakdownOf
  rw [List.mem_filterMap]
  constructor
  · rintro ⟨s, hs, hf⟩
    by_cases hc : 0 < w.count s
    · rw [if_pos hc] at hf
      exact ⟨s, hs, hc, (Option.some.injEq _ _ ▸ hf).symm⟩
    · rw [if_neg hc] at hf
      exact absurd hf (by simp)
  · rintro ⟨s, hs, hc, rfl⟩
    exact ⟨s, hs, by rw [if_pos hc]⟩

theorem breakdownOf_mem_elim {sizes w : List Int} {pb : PackBreakdown}
    (h : pb ∈ breakdownOf sizes w) :
    pb.size ∈ sizes ∧ pb.count = w.count pb.size ∧ 0 < pb.count := by
  obtain ⟨s, hs, hc, rfl⟩ := breakdownOf_mem.mp h
  exact ⟨hs, rfl, hc⟩

theorem breakdownOf_pairwise {w : List Int} :
    ∀ {sizes : List Int}, sizes.Pairwise (· > ·) →
      (breakdownOf sizes w).Pairwise (fun a b => b.size < a.size) := by
  intro sizes
  induction sizes with
  | nil => intro _; simp [breakdownOf]
  | cons a rest ih =>
    intro hdesc
    have hhead := (List.pairwise_cons.mp hdesc).1
    have htail := (List.pairwise_cons.mp hdesc).2
    by_cases hc : 0 < w.count a
    · rw [breakdownOf_cons_pos hc]
      rw [List.pairwise_cons]
      refine ⟨?_, ih htail⟩
      intro pb hpb
      have := (breakdownOf_mem_elim hpb).1
      exact hhead _ this
    · rw [breakdownOf_cons_neg hc]
      exact ih htail

theorem breakdownOf_congr {w1 w2 : List Int} :
    ∀ {sizes : List Int}, (∀ x ∈ sizes, w1.count x = w2.count x) →
      breakdownOf sizes w1 = breakdownOf sizes w2 := by
  intro sizes
  induction sizes with
  | nil => intro _; rfl
  | cons a rest ih =>
    intro h
    have ha := h a (List.mem_cons_self a rest)
    have hrest := ih (fun x hx => h x (List.mem_cons_of_mem _ hx))
    simp only [breakdownOf, List.filterMap_cons] at hrest ⊢
    rw [ha, hrest]

theorem breakdownOf_sums :
    ∀ (sizes w : List Int), sizes.Nodup → (∀ x ∈ w, x ∈ sizes) →
      ((breakdownOf sizes w).map (fun pb => pb.size * (pb.count : Int))).sum = w.sum ∧
      ((breakdownOf sizes w).map (fun pb => pb.count)).sum = w.length := by
  intro sizes
  induction sizes with
  | nil =>
    intro w _ hw
    have hnil : w = [] := List.eq_nil_iff_forall_not_mem.mpr (fun x hx => by simpa using hw x hx)
    subst hnil
    simp [breakdownOf]
  | cons a rest ih =>
    intro w hnd hw
    have ha : a ∉ rest := (List.nodup_cons.mp hnd).1
    have hnd' : rest.Nodup := (List.nodup_cons.mp hnd).2
    have hw'mem : ∀ x ∈ w.filter (fun y => y ≠ a), x ∈ rest := by
      intro x hx
      obtain ⟨hxw, hxa⟩ := List.mem_filter.mp hx
      have hxa' : x ≠ a := by simpa using hxa
      rcases List.mem_cons.mp (hw x hxw) with rfl | hxr
      · exact absurd rfl hxa'
      · exact hxr
    have hcnt : ∀ x ∈ rest, w.count x = (w.filter (fun y => y ≠ a)).count x := by
      intro x hx
      exact (count_filter_ne_eq a x (fun he => ha (he ▸ hx)) w).symm
    have hcongr : breakdownOf rest w = breakdownOf rest (w.filter (fun y => y ≠ a)) :=
      breakdownOf_congr hcnt
    obtain ⟨ihs, ihl⟩ := ih (w.filter (fun y => y ≠ a)) hnd' hw'mem
    by_cases hc : 0 < w.count a
    · rw [breakdownOf_cons_pos hc]
      constructor
      · simp only [List.map_cons, List.sum_cons]
        rw [hcongr, ihs, sum_count_filter a w]
      · simp only [List.map_cons, List.sum_cons]
        rw [hcongr, ihl, length_count_filter a w]
    · have hc0 : w.count a = 0 := by omega
      rw [breakdownOf_cons_neg hc]
      constructor
      · rw [hcongr, ihs, sum_count_filter a w, hc0]
        simp
      · rw [hcongr, ihl, length_count_filter a w, hc0]
        omega

end PackOptimizer

namespace PackOptimizer

/-! Properties of the descending insertion sort. -/

theorem insertDesc_perm (x : Int) : ∀ l : List Int, (insertDesc x l).Perm (x :: l) := by
  intro l
  induction l with
  | nil => exact List.Perm.refl _
  | cons y ys ih =>
    by_cases h : y ≤ x
    · simp only [insertDesc, if_pos h]
      exact List.Perm.refl _
    · simp only [insertDesc, if_neg h]
      exact (ih.cons y).trans (List.Perm.swap x y ys)

theorem sortDesc_perm : ∀ l : List Int, (sortDesc l).Perm l := by
  intro l
  induction l with
  | nil => exact List.Perm.refl _
  | cons x xs ih =>
    simp only [sortDesc]
    exact (insertDesc_perm x (sortDesc xs)).trans (ih.cons x)

theorem insertDesc_pairwise (x : Int) : ∀ l : List Int,
    l.Pairwise (fun a b => b ≤ a) → (insertDesc x l).Pairwise (fun a b => b ≤ a) := by
  intro l
  induction l with
  | nil => intro _; simp [insertDesc]
  | cons y ys ih =>
    intro h
    by_cases hyx : y ≤ x
    · simp only [insertDesc, if_pos hyx]
      rw [List.pairwise_cons]
      refine ⟨?_, h⟩
      intro z hz
      rcases List.mem_cons.mp hz with rfl | hz'
      · exact hyx
      · exact le_trans ((List.pairwise_cons.mp h).1 z hz') hyx
    · simp only [insertDesc, if_neg hyx]
      rw [List.pairwise_cons]
      refine ⟨?_, ih (List.pairwise_cons.mp h).2⟩
      intro z hz
      rcases List.mem_cons.mp ((insertDesc_perm x ys).mem_iff.mp hz) with rfl | hz'
      · omega
      · exact (List.pairwise_cons.mp h).1 z hz'

theorem sortDesc_pairwise : ∀ l : List Int, (sortDesc l).Pairwise (fun a b => b ≤ a) := by
  intro l
  induction l with
  | nil => simp [sortDesc]
  | cons x xs ih => exact insertDesc_pairwise x (sortDesc xs) ih

theorem sortDesc_strict (l : List Int) (h : l.Nodup) : (sortDesc l).Pairwise (· > ·) := by
  have hnd : (sortDesc l).Nodup := ((sortDesc_perm l).nodup_iff).mpr h
  exact ((sortDesc_pairwise l).and hnd).imp
    (fun hab => lt_of_le_of_ne hab.1 (Ne.symm hab.2))

theorem insertDesc_of_gt (x : Int) : ∀ l : List Int,
    (∀ z ∈ l, z < x) → insertDesc x l = x :: l := by
  intro l h
  cases l with
  | nil => rfl
  | cons y ys =>
    simp only [insertDesc]
    rw [if_pos (le_of_lt (h y (List.mem_cons_self y ys)))]

theorem sortDesc_eq_self : ∀ l : List Int, l.Pairwise (· > ·) → sortDesc l = l := by
  intro l
  induction l with
  | nil => intro _; rfl
  | cons x xs ih =>
    intro h
    simp only [sortDesc]
    rw [ih (List.pairwise_cons.mp h).2]
    exact insertDesc_of_gt x xs (fun z hz => (List.pairwise_cons.mp h).1 z hz)

theorem sortedDesc_unique (l1 l2 : List Int) (p : l1.Perm l2)
    (h1 : l1.Pairwise (· > ·)) (h2 : l2.Pairwise (· > ·)) : l1 = l2 := by
  haveI : IsAntisymm Int (· > ·) := ⟨fun a b hab hba => absurd (lt_trans hba hab) (lt_irrefl a)⟩
  exact List.eq_of_perm_of_sorted p h1 h2

/-! Properties of the validation/dedup loop and of normalization. -/

theorem normalizeAux_ok : ∀ (l seen out : List Int), normalizeAux seen l = .ok out →
    (∀ s ∈ l, 0 < s ∧ s ≤ maxInt32Value) ∧
    (∀ v, v ∈ out ↔ v ∈ seen ∨ v ∈ l) ∧
    (seen.Nodup → out.Nodup) := by
  intro l
  induction l with
  | nil =>
    intro seen out h
    simp only [normalizeAux] at h
    have heq : seen = out := by injection h
    subst heq
    exact ⟨by simp, fun v => by simp, id⟩
  | cons size rest ih =>
    intro seen out h
    simp only [normalizeAux] at h
    by_cases h1 : size ≤ 0
    · rw [if_pos h1] at h; exact absurd h (by simp)
    · rw [if_neg h1] at h
      by_cases h2 : size > maxInt32Value
      · rw [if_pos h2] at h; exact absurd h (by simp)
      · rw [if_neg h2] at h
        by_cases h3 : size ∈ seen
        · rw [if_pos h3] at h
          obtain ⟨hval, hmem, hnd⟩ := ih seen out h
          refine ⟨?_, ?_, hnd⟩
          · intro s hs
            rcases List.mem_cons.mp hs with rfl | hs'
            · exact ⟨by omega, by omega⟩
            · exact hval s hs'
          · intro v
            rw [hmem v]
            constructor
            · rintro (hv | hv)
              · exact Or.inl hv
              · exact Or.inr (List.mem_cons_of_mem _ hv)
            · rintro (hv | hv)
              · exact Or.inl hv
              · rcases List.mem_cons.mp hv with rfl | hv'
                · exact Or.inl h3
                · exact Or.inr hv'
        · rw [if_neg h3] at h
          obtain ⟨hval, hmem, hnd⟩ := ih (seen ++ [size]) out h
          refine ⟨?_, ?_, ?_⟩
          · intro s hs
            rcases List.mem_cons.mp hs with rfl | hs'
            · exact ⟨by omega, by omega⟩
            · exact hval s hs'
          · intro v
            rw [hmem v]
            simp only [List.mem_append, List.mem_singleton, List.mem_cons]
            tauto
          · intro hseen
            refine hnd (List.Nodup.append hseen (List.nodup_singleton size) ?_)
            intro a ha hb
            rw [List.mem_singleton.mp hb] at ha
            exact h3 ha

theorem normalizeAux_ok_of_valid : ∀ l : List Int,
    (∀ s ∈ l, 0 < s ∧ s ≤ maxInt32Value) →
    ∀ seen, ∃ out, normalizeAux seen l = .ok out := by
  intro l
  induction l with
  | nil => intro _ seen; exact ⟨seen, rfl⟩
  | cons size rest ih =>
    intro hval seen
    have hv := hval size (List.mem_cons_self size rest)
    have hrest := fun s hs => hval s (List.mem_cons_of_mem _ hs)
    simp only [normalizeAux]
    rw [if_neg (by omega), if_neg (by omega)]
    by_cases h3 : size ∈ seen
    · rw [if_pos h3]; exact ih hrest seen
    · rw [if_neg h3]; exact ih hrest (seen ++ [size])

theorem normalizeAux_of_valid_nodup : ∀ (l seen : List Int),
    (∀ s ∈ l, 0 < s ∧ s ≤ maxInt32Value) → l.Nodup → (∀ s ∈ l, s ∉ seen) →
    normalizeAux seen l = .ok (seen ++ l) := by
  intro l
  induction l with
  | nil => intro seen _ _ _; simp [normalizeAux]
  | cons size rest ih =>
    intro seen hval hnd hdisj
    have hv := hval size (List.mem_cons_self size rest)
    simp only [normalizeAux]
    rw [if_neg (by omega), if_neg (by omega),
      if_neg (hdisj size (List.mem_cons_self size rest))]
    rw [ih (seen ++ [size]) (fun s hs => hval s (List.mem_cons_of_mem _ hs))
      (List.nodup_cons.mp hnd).2 ?_]
    · rw [List.append_assoc]
      rfl
    · intro s hs hmem
      rcases List.mem_append.mp hmem with h' | h'
      · exact hdisj s (List.mem_cons_of_mem _ hs) h'
      · exact (List.nodup_cons.mp hnd).1 ((List.mem_singleton.mp h') ▸ hs)

theorem normalize_ok_props (xs sizes : List Int) (hN : NormalizePackSizes xs = .ok sizes) :
    sizes ≠ [] ∧ sizes.Pairwise (· > ·) ∧
    (∀ s ∈ sizes, 0 < s ∧ s ≤ maxInt32Value) ∧
    (∀ v, v ∈ sizes ↔ v ∈ xs) := by
  unfold NormalizePackSizes at hN
  by_cases he : xs.isEmpty
  · rw [if_pos he] at hN; exact absurd hN (by simp)
  · rw [if_neg he] at hN
    rcases haux : normalizeAux [] xs with e | out
    · rw [haux] at hN; simp at hN
    · rw [haux] at hN
      have hN' : (if out.isEmpty = true then Except.error OptError.invalidPackSizes
          else Except.ok (sortDesc out)) = Except.ok sizes := hN
      by_cases ho : out.isEmpty
      · rw [if_pos ho] at hN'; simp at hN'
      · rw [if_neg ho] at hN'
        have hsz : sortDesc out = sizes := by injection hN'
        obtain ⟨hval, hmem, hnd⟩ := normalizeAux_ok xs [] out haux
        have hndout : out.Nodup := hnd List.nodup_nil
        have hmem' : ∀ v, v ∈ out ↔ v ∈ xs := fun v => by rw [hmem v]; simp
        have hperm := sortDesc_perm out
        subst hsz
        refine ⟨?_, sortDesc_strict out hndout, ?_, ?_⟩
        · intro hcon
          have hlen := hperm.length_eq
          rw [hcon] at hlen
          have : out = [] := List.length_eq_zero.mp hlen.symm
          rw [this] at ho
          exact ho rfl
        · intro s hs
          exact hval s ((hmem' s).mp (hperm.mem_iff.mp hs))
        · intro v
          rw [hperm.mem_iff]
          exact hmem' v

theorem normalize_idempotent (xs sizes : List Int)
    (hN : NormalizePackSizes xs = .ok sizes) :
    NormalizePackSizes sizes = .ok sizes := by
  obtain ⟨hne, hdesc, hval, _⟩ := normalize_ok_props xs sizes hN
  have hnd : sizes.Nodup := hdesc.imp (fun h => ne_of_gt h)
  have haux : normalizeAux [] sizes = .ok sizes := by
    have := normalizeAux_of_valid_nodup sizes [] hval hnd (by simp)
    simpa using this
  unfold NormalizePackSizes
  rw [if_neg (by simpa using hne), haux]
  show (if sizes.isEmpty = true then Except.error OptError.invalidPackSizes
      else Except.ok (sortDesc sizes)) = Except.ok sizes
  rw [if_neg (by simpa using hne)]
  rw [sortDesc_eq_self sizes hdesc]

theorem normalize_mem_invariance (xs sizes ys : List Int)
    (hN : NormalizePackSizes xs = .ok sizes)
    (hmem : ∀ v, v ∈ ys ↔ v ∈ xs) :
    NormalizePackSizes ys = .ok sizes := by
  obtain ⟨hne, hdesc, hval, hmemxs⟩ := normalize_ok_props xs sizes hN
  have hndsz : sizes.Nodup := hdesc.imp (fun h => ne_of_gt h)
  have hvalys : ∀ s ∈ ys, 0 < s ∧ s ≤ maxInt32Value := by
    intro s hs
    exact hval s ((hmemxs s).mpr ((hmem s).mp hs))
  have hysne : ys ≠ [] := by
    obtain ⟨v, hv⟩ := List.exists_mem_of_ne_nil sizes hne
    intro hcon
    have : v ∈ ys := (hmem v).mpr ((hmemxs v).mp hv)
    rw [hcon] at this
    simp at this
  obtain ⟨out, hout⟩ := normalizeAux_ok_of_valid ys hvalys []
  obtain ⟨_, hmemout, hndout⟩ := normalizeAux_ok ys [] out hout
  have hmemout' : ∀ v, v ∈ out ↔ v ∈ sizes := by
    intro v
    rw [hmemout v]
    simp only [List.not_mem_nil, false_or]
    rw [hmem v, hmemxs v]
  have houtne : out ≠ [] := by
    obtain ⟨v, hv⟩ := List.exists_mem_of_ne_nil sizes hne
    intro hcon
    have := (hmemout' v).mpr hv
    rw [hcon] at this
    simp at this
  have hsorted := sortDesc_strict out (hndout List.nodup_nil)
  have hperm2 : (sortDesc out).Perm sizes := by
    refine (List.perm_ext_iff_of_nodup ((sortDesc_perm out).nodup_iff.mpr
      (hndout List.nodup_nil)) hndsz).mpr ?_
    intro a
    rw [(sortDesc_perm out).mem_iff]
    exact hmemout' a
  have heq : sortDesc out = sizes := sortedDesc_unique _ _ hperm2 hsorted hdesc
  unfold NormalizePackSizes
  rw [if_neg (by simpa using hysne), hout]
  show (if out.isEmpty = true then Except.error OptError.invalidPackSizes
      else Except.ok (sortDesc out)) = Except.ok sizes
  rw [if_neg (by simpa using houtne), heq]

/-- Whenever two inputs normalize identically the whole optimization
agrees, because everything after normalization depends only on its
result. -/
theorem optimize_congr (i : Int) (a b : List Int)
    (h : NormalizePackSizes a = NormalizePackSizes b) :
    Optimize i a = Optimize i b := by
  unfold Optimize
  rw [h]

end PackOptimizer

namespace PackOptimizer

/-! The largest (head) and smallest (last) normalized pack sizes. -/

theorem headD_mem {l : List Int} (h : l ≠ []) : l.headD 0 ∈ l := by
  cases l with
  | nil => exact absurd rfl h
  | cons x xs => exact List.mem_cons_self x xs

theorem headD_ge {l : List Int} (hdesc : l.Pairwise (· > ·)) :
    ∀ s ∈ l, s ≤ l.headD 0 := by
  cases l with
  | nil => intro s hs; simp at hs
  | cons x xs =>
    intro s hs
    rcases List.mem_cons.mp hs with rfl | hs'
    · exact le_rfl
    · exact le_of_lt ((List.pairwise_cons.mp hdesc).1 s hs')

theorem getLastD_mem : ∀ (l : List Int) (d : Int), l ≠ [] → l.getLastD d ∈ l := by
  intro l
  induction l with
  | nil => intro d h; exact absurd rfl h
  | cons x xs ih =>
    intro d _
    rw [List.getLastD_cons]
    by_cases hxs : xs = []
    · subst hxs
      exact List.mem_singleton.mpr rfl
    · exact List.mem_cons_of_mem _ (ih x hxs)

theorem getLastD_le : ∀ (l : List Int) (d : Int), l.Pairwise (· > ·) →
    ∀ s ∈ l, l.getLastD d ≤ s := by
  intro l
  induction l with
  | nil => intro d _ s hs; simp at hs
  | cons x xs ih =>
    intro d h s hs
    rw [List.getLastD_cons]
    by_cases hxs : xs = []
    · subst hxs
      rw [List.mem_singleton] at hs
      subst hs
      exact le_rfl
    · rcases List.mem_cons.mp hs with rfl | hs'
      · have hmem := getLastD_mem xs s hxs
        have := (List.pairwise_cons.mp h).1 _ hmem
        omega
      · exact ih x (List.pairwise_cons.mp h).2 s hs'

/-- Assembling one full run of `Optimize` from the outcomes of its
stages. -/
theorem Optimize_eq_of (i : Int) (xs sizes : List Int) (t0 : PackingTable)
    (chosen : Nat) (bd : List PackBreakdown)
    (h1 : ¬i ≤ 0) (h2 : ¬i > maxInt32Value)
    (hN : NormalizePackSizes xs = .ok sizes)
    (ht0 : newPackingTable i sizes = .ok t0)
    (hch : chooseFulfillmentTotal (buildOptimalPackingTable t0) = .ok chosen)
    (hbd : buildBreakdown (buildOptimalPackingTable t0) chosen = .ok bd) :
    Optimize i xs = .ok ⟨i, chosen,
      ((buildOptimalPackingTable t0).cells.getD chosen
        (unsetCell (buildOptimalPackingTable t0).unreachablePacks)).minPacks, bd⟩ := by
  unfold Optimize
  rw [if_neg h1, if_neg h2]
  simp only [hN, ht0, hch, hbd]

end PackOptimizer

namespace PackOptimizer

/-- One full successful run of `Optimize` on a valid input, together with
every semantic property of the returned plan that the optimizer
guarantees. -/
theorem optimize_success_spec (i : Int) (xs sizes : List Int)
    (h1 : 0 < i) (h2 : i ≤ maxInt32Value)
    (hN : NormalizePackSizes xs = .ok sizes)
    (hT : i + sizes.headD 0 ≤ maxTableEntries) :
    ∃ plan : Plan, Optimize i xs = .ok plan ∧
      plan.itemsOrdered = i ∧
      i ≤ (plan.totalItems : Int) ∧
      Reachable sizes (plan.totalItems : Int) ∧
      (∀ m : Int, i ≤ m → Reachable sizes m → (plan.totalItems : Int) ≤ m) ∧
      ReachableIn sizes plan.totalPacks (plan.totalItems : Int) ∧
      (∀ k, ReachableIn sizes k (plan.totalItems : Int) → plan.totalPacks ≤ k) ∧
      plan.packs.Pairwise (fun a b => b.size < a.size) ∧
      (∀ pb ∈ plan.packs, pb.size ∈ sizes ∧ 0 < pb.count) ∧
      (plan.packs.map (fun pb => pb.size * (pb.count : Int))).sum = (plan.totalItems : Int) ∧
      (plan.packs.map (fun pb => pb.count)).sum = plan.totalPacks ∧
      (∀ pb ∈ plan.packs, (plan.totalItems : Int) - i < pb.size) := by
  obtain ⟨hne, hdesc, hval, hmemiff⟩ := normalize_ok_props xs sizes hN
  have hpos : ∀ s ∈ sizes, 0 < s := fun s hs => (hval s hs).1
  have hLmem : sizes.headD 0 ∈ sizes := headD_mem hne
  have hL1 : 0 < sizes.headD 0 := hpos _ hLmem
  have hsmmem : sizes.getLastD 0 ∈ sizes := getLastD_mem sizes 0 hne
  have hsm1 : 0 < sizes.getLastD 0 := hpos _ hsmmem
  have hsmle : ∀ s ∈ sizes, sizes.getLastD 0 ≤ s := getLastD_le sizes 0 hdesc
  have ht0 : newPackingTable i sizes = .ok
      ⟨i, sizes, (i + sizes.headD 0 - 1).toNat,
        (i + sizes.headD 0 - 1).toNat / (sizes.getLastD 0).toNat + 1,
        initCells (i + sizes.headD 0 - 1).toNat
          ((i + sizes.headD 0 - 1).toNat / (sizes.getLastD 0).toNat + 1)⟩ := by
    simp only [newPackingTable]
    rw [if_neg (by omega), if_neg (by omega)]
  set limitN := (i + sizes.headD 0 - 1).toNat with hlimdef
  set uN := limitN / (sizes.getLastD 0).toNat + 1 with hudef
  have hbuildt : buildOptimalPackingTable ⟨i, sizes, limitN, uN, initCells limitN uN⟩ =
      ⟨i, sizes, limitN, uN, buildTable sizes uN limitN⟩ := rfl
  have hcellslen : (buildTable sizes uN limitN).length = limitN + 1 :=
    buildTable_length sizes uN limitN
  have hiN1 : 1 ≤ i.toNat := by omega
  have hiNle : i.toNat ≤ limitN := by omega
  have hLN1 : 0 < (sizes.headD 0).toNat := by omega
  obtain ⟨k, hk1, hk2⟩ : ∃ k : Nat, i.toNat ≤ k * (sizes.headD 0).toNat ∧
      k * (sizes.headD 0).toNat ≤ limitN := by
    have hdm := Nat.div_add_mod (i.toNat - 1) (sizes.headD 0).toNat
    have hmod : (i.toNat - 1) % (sizes.headD 0).toNat < (sizes.headD 0).toNat :=
      Nat.mod_lt _ hLN1
    have hk : ((i.toNat - 1) / (sizes.headD 0).toNat + 1) * (sizes.headD 0).toNat =
        (sizes.headD 0).toNat * ((i.toNat - 1) / (sizes.headD 0).toNat) +
          (sizes.headD 0).toNat := by ring
    exact ⟨(i.toNat - 1) / (sizes.headD 0).toNat + 1, by omega, by omega⟩
  have hdiagT : (diag sizes uN (k * (sizes.headD 0).toNat)).minPacks ≠ uN := by
    refine (diag_reachable_iff sizes limitN (sizes.getLastD 0) uN hpos hsmle hsm1 hudef
      _ hk2).mpr ⟨k, ?_⟩
    have hmul := reachableIn_mul hLmem k
    have hc : ((k * (sizes.headD 0).toNat : Nat) : Int) = (k : Int) * sizes.headD 0 := by
      push_cast [Int.toNat_of_nonneg hL1.le]
      ring
    rwa [hc]
  have hgetT : ((buildTable sizes uN limitN).getD (k * (sizes.headD 0).toNat)
      (unsetCell uN)).minPacks ≠ uN := by
    rw [buildTable_getD sizes uN limitN _ hk2]
    exact hdiagT
  obtain ⟨chosen, hch0, hchle⟩ := chooseFrom_ok_of_reachable (buildTable sizes uN limitN) uN
    ((buildTable sizes uN limitN).length - i.toNat) i.toNat (k * (sizes.headD 0).toNat)
    hk1 (by rw [hcellslen]; omega) hgetT
  obtain ⟨hcs1, hcs2, hcs3, hcs4⟩ := chooseFrom_ok_spec (buildTable sizes uN limitN) uN
    _ _ _ hch0
  have hchlim : chosen ≤ limitN := by rw [hcellslen] at hcs2; omega
  have hchne : (diag sizes uN chosen).minPacks ≠ uN := by
    rw [← buildTable_getD sizes uN limitN _ hchlim]
    exact hcs3
  have hchuns : ∀ j, i.toNat ≤ j → j < chosen → (diag sizes uN j).minPacks = uN := by
    intro j hj1 hj2
    rw [← buildTable_getD sizes uN limitN _ (by omega)]
    exact hcs4 j hj1 hj2
  have hch : chooseFulfillmentTotal ⟨i, sizes, limitN, uN, buildTable sizes uN limitN⟩ =
      .ok chosen := hch0
  have hminle : (diag sizes uN chosen).minPacks ≤ chosen := by
    have := diag_minPacks_bound sizes limitN (sizes.getLastD 0) uN hpos hsmle hsm1 hudef
      chosen hchlim hchne
    exact le_trans this (Nat.div_le_self _ _)
  obtain ⟨w, hw, hwlen, hwmem, hwsum⟩ := collectPacks_spec sizes limitN (sizes.getLastD 0)
    uN hpos hsmle hsm1 hudef chosen hchlim hchne chosen hminle []
  rw [List.append_nil] at hw
  have hbd : buildBreakdown ⟨i, sizes, limitN, uN, buildTable sizes uN limitN⟩ chosen =
      .ok (breakdownOf sizes w) := by
    have hdef : buildBreakdown ⟨i, sizes, limitN, uN, buildTable sizes uN limitN⟩ chosen =
        (match collectPacks (buildTable sizes uN limitN) uN chosen chosen [] with
          | .error e => .error e
          | .ok walked => .ok (breakdownOf sizes walked)) := rfl
    rw [hdef, hw]
  have hplan := Optimize_eq_of i xs sizes ⟨i, sizes, limitN, uN, initCells limitN uN⟩ chosen
    (breakdownOf sizes w) (by omega) (by omega) hN ht0
    (by rw [hbuildt]; exact hch) (by rw [hbuildt]; exact hbd)
  have hplanPacks : ((buildOptimalPackingTable
        ⟨i, sizes, limitN, uN, initCells limitN uN⟩).cells.getD chosen
      (unsetCell (buildOptimalPackingTable
        ⟨i, sizes, limitN, uN, initCells limitN uN⟩).unreachablePacks)).minPacks =
      (diag sizes uN chosen).minPacks := by
    rw [hbuildt]
    show ((buildTable sizes uN limitN).getD chosen (unsetCell uN)).minPacks = _
    rw [buildTable_getD sizes uN limitN _ hchlim]
  rw [hplanPacks] at hplan
  have hminimal : ∀ m : Int, i ≤ m → Reachable sizes m → ((chosen : Nat) : Int) ≤ m := by
    intro m him hreach
    by_contra hcon
    push_neg at hcon
    have hmlt : m.toNat < chosen := by omega
    have hreach' : Reachable sizes ((m.toNat : Nat) : Int) := by
      rwa [show ((m.toNat : Nat) : Int) = m by omega]
    have hmne := (diag_reachable_iff sizes limitN (sizes.getLastD 0) uN hpos hsmle hsm1
      hudef m.toNat (by omega)).mpr hreach'
    exact hmne (hchuns m.toNat (by omega) hmlt)
  have hnd : sizes.Nodup := hdesc.imp (fun h => ne_of_gt h)
  obtain ⟨hsums, hsuml⟩ := breakdownOf_sums sizes w hnd hwmem
  have hover : ∀ pb ∈ breakdownOf sizes w, ((chosen : Nat) : Int) - i < pb.size := by
    intro pb hpb
    obtain ⟨hpsz, hpcnt, hpcnt0⟩ := breakdownOf_mem_elim hpb
    have hpsz0 : 0 < pb.size := hpos _ hpsz
    have hmemw : pb.size ∈ w := List.count_pos_iff.mp (by omega)
    have hperm := List.perm_cons_erase hmemw
    have hsum2 : w.sum = pb.size + (w.erase pb.size).sum := by
      rw [hperm.sum_eq]
      simp [List.sum_cons]
    have hmem2 : ∀ x ∈ w.erase pb.size, x ∈ sizes :=
      fun x hx => hwmem x (List.mem_of_mem_erase hx)
    have hreach2 : ReachableIn sizes (w.erase pb.size).length ((w.erase pb.size).sum) :=
      reachableIn_sum _ hmem2
    by_contra hcon
    push_neg at hcon
    have him : i ≤ (w.erase pb.size).sum := by omega
    have := hminimal _ him ⟨_, hreach2⟩
    omega
  have hdd := diag_invariant sizes limitN (sizes.getLastD 0) uN hpos hsmle hsm1 hudef
    chosen hchlim
  refine ⟨⟨i, chosen, (diag sizes uN chosen).minPacks, breakdownOf sizes w⟩,
    hplan, rfl, ?_, ?_, hminimal, ?_, ?_, ?_, ?_, ?_, ?_, hover⟩
  · show i ≤ ((chosen : Nat) : Int)
    clear hdd
    omega
  · exact ⟨_, hdd.1 hchne⟩
  · exact hdd.1 hchne
  · exact fun k hk => hdd.2.1 k hk
  · exact breakdownOf_pairwise hdesc
  · intro pb hpb
    obtain ⟨hpsz, _, hpc⟩ := breakdownOf_mem_elim hpb
    exact ⟨hpsz, hpc⟩
  · rw [hsums, hwsum]
  · rw [hsuml, hwlen]

end PackOptimizer

namespace PackOptimizer

/-- Reachability only depends on which values occur among the pack sizes,
so the original input list and its normalization define the same notion. -/
theorem reachable_congr {l1 l2 : List Int} (hmem : ∀ v, v ∈ l1 ↔ v ∈ l2) (n : Int) :
    Reachable l1 n ↔ Reachable l2 n :=
  ⟨fun ⟨k, hk⟩ => ⟨k, reachableIn_congr hmem hk⟩,
   fun ⟨k, hk⟩ => ⟨k, reachableIn_congr (fun v => (hmem v).symm) hk⟩⟩

/-- Inversion of a successful `newPackingTable`: both range checks passed
and the returned structure is the canonical one. -/
theorem newPackingTable_ok_elim (i : Int) (sizes : List Int) (t0 : PackingTable)
    (h : newPackingTable i sizes = .ok t0) :
    0 < i + sizes.headD 0 - 1 ∧ i + sizes.headD 0 - 1 + 1 ≤ maxTableEntries ∧
    t0 = ⟨i, sizes, (i + sizes.headD 0 - 1).toNat,
      (i + sizes.headD 0 - 1).toNat / (sizes.getLastD 0).toNat + 1,
      initCells (i + sizes.headD 0 - 1).toNat
        ((i + sizes.headD 0 - 1).toNat / (sizes.getLastD 0).toNat + 1)⟩ := by
  simp only [newPackingTable] at h
  by_cases hc1 : i + sizes.headD 0 - 1 ≤ 0
  · rw [if_pos hc1] at h; simp at h
  · rw [if_neg hc1] at h
    by_cases hc2 : i + sizes.headD 0 - 1 + 1 > maxTableEntries
    · rw [if_pos hc2] at h; simp at h
    · rw [if_neg hc2] at h
      have heq : (⟨i, sizes, (i + sizes.headD 0 - 1).toNat,
          (i + sizes.headD 0 - 1).toNat / (sizes.getLastD 0).toNat + 1,
          initCells (i + sizes.headD 0 - 1).toNat
            ((i + sizes.headD 0 - 1).toNat / (sizes.getLastD 0).toNat + 1)⟩ :
          PackingTable) = t0 := by injection h
      exact ⟨by omega, by omega, heq.symm⟩

/-- On a valid quantity with successfully normalized sizes, the
`OptimizationTooLarge` outcome happens exactly when the range checks in
`newPackingTable` trip. -/
theorem optimize_tooLarge_iff (i : Int) (xs sizes : List Int)
    (h1 : 0 < i) (h2 : i ≤ maxInt32Value)
    (hN : NormalizePackSizes xs = .ok sizes) :
    Optimize i xs = .error .optimizationTooLarge ↔
      (i + sizes.headD 0 - 1 ≤ 0 ∨ i + sizes.headD 0 - 1 + 1 > maxTableEntries) := by
  obtain ⟨hne, hdesc, hval, _⟩ := normalize_ok_props xs sizes hN
  have hL1 : 0 < sizes.headD 0 := (hval _ (headD_mem hne)).1
  constructor
  · intro herr
    by_contra hcon
    push_neg at hcon
    obtain ⟨plan, hok, _⟩ := optimize_success_spec i xs sizes h1 h2 hN (by omega)
    rw [hok] at herr
    simp at herr
  · intro hcond
    have hnt : newPackingTable i sizes = .error .optimizationTooLarge := by
      simp only [newPackingTable]
      rw [if_neg (by omega), if_pos (by omega)]
    unfold Optimize
    rw [if_neg (by omega), if_neg (by omega)]
    simp only [hN, hnt]

end PackOptimizer

namespace PackOptimizer

/-- C1: on every valid input (quantity in `[1, maxInt32]`, normalization
succeeded, table-size check passed), the returned plan ships at least the
ordered quantity, and its total is the smallest integer at or above the
order reachable as a non-negative integer combination of the given pack
sizes. -/
theorem C1_total_items_least (i : Int) (xs sizes : List Int) (plan : Plan)
    (h1 : 0 < i) (h2 : i ≤ maxInt32Value)
    (hN : NormalizePackSizes xs = .ok sizes)
    (hT : i + sizes.headD 0 ≤ maxTableEntries)
    (hplan : Optimize i xs = .ok plan) :
    i ≤ (plan.totalItems : Int) ∧
    Reachable xs (plan.totalItems : Int) ∧
    ∀ m : Int, i ≤ m → Reachable xs m → (plan.totalItems : Int) ≤ m := by
  obtain ⟨plan', hok, _, hge, hreach, hleast, _⟩ :=
    optimize_success_spec i xs sizes h1 h2 hN hT
  rw [hok] at hplan
  have heq : plan' = plan := by injection hplan
  subst heq
  obtain ⟨_, _, _, hmemiff⟩ := normalize_ok_props xs sizes hN
  have htrans : ∀ n : Int, Reachable xs n ↔ Reachable sizes n :=
    fun n => reachable_congr (fun v => (hmemiff v).symm) n
  exact ⟨hge, (htrans _).mpr hreach,
    fun m hm hr => hleast m hm ((htrans m).mp hr)⟩

theorem C1_total_items_least_witness :
    Optimize 7 [3, 5] = .ok ⟨7, 8, 2, [⟨5, 1⟩, ⟨3, 1⟩]⟩ ∧
    ((7 : Int) ≤ ((8 : Nat) : Int) ∧
      Reachable [3, 5] ((8 : Nat) : Int) ∧
      ∀ m : Int, 7 ≤ m → Reachable [3, 5] m → ((8 : Nat) : Int) ≤ m) :=
  ⟨rfl, C1_total_items_least 7 [3, 5] [5, 3] ⟨7, 8, 2, [⟨5, 1⟩, ⟨3, 1⟩]⟩
    (by decide) (by decide) rfl (by decide) rfl⟩

/-- C2: on every valid input on which a plan is returned, its pack count
is the minimum over all combinations of the given pack sizes whose item
sum is exactly the chosen total. -/
theorem C2_total_packs_minimal (i : Int) (xs sizes : List Int) (plan : Plan)
    (h1 : 0 < i) (h2 : i ≤ maxInt32Value)
    (hN : NormalizePackSizes xs = .ok sizes)
    (hT : i + sizes.headD 0 ≤ maxTableEntries)
    (hplan : Optimize i xs = .ok plan) :
    ReachableIn xs plan.totalPacks (plan.totalItems : Int) ∧
    ∀ k, ReachableIn xs k (plan.totalItems : Int) → plan.totalPacks ≤ k := by
  obtain ⟨plan', hok, _, _, _, _, hrin, hmin, _⟩ :=
    optimize_success_spec i xs sizes h1 h2 hN hT
  rw [hok] at hplan
  have heq : plan' = plan := by injection hplan
  subst heq
  obtain ⟨_, _, _, hmemiff⟩ := normalize_ok_props xs sizes hN
  exact ⟨reachableIn_congr (fun v => (hmemiff v)) hrin,
    fun k hk => hmin k (reachableIn_congr (fun v => (hmemiff v).symm) hk)⟩

theorem C2_total_packs_minimal_witness :
    Optimize 7 [3, 5] = .ok ⟨7, 8, 2, [⟨5, 1⟩, ⟨3, 1⟩]⟩ ∧
    (ReachableIn [3, 5] 2 ((8 : Nat) : Int) ∧
      ∀ k, ReachableIn [3, 5] k ((8 : Nat) : Int) → 2 ≤ k) :=
  ⟨rfl, C2_total_packs_minimal 7 [3, 5] [5, 3] ⟨7, 8, 2, [⟨5, 1⟩, ⟨3, 1⟩]⟩
    (by decide) (by decide) rfl (by decide) rfl⟩

/-- C3: on every valid input on which a plan is returned, the breakdown is
internally consistent: sizes strictly descending and drawn from the input
pack sizes, counts positive, sizes-times-counts summing to the total
items, and counts summing to the total packs. -/
theorem C3_breakdown_consistent (i : Int) (xs sizes : List Int) (plan : Plan)
    (h1 : 0 < i) (h2 : i ≤ maxInt32Value)
    (hN : NormalizePackSizes xs = .ok sizes)
    (hT : i + sizes.headD 0 ≤ maxTableEntries)
    (hplan : Optimize i xs = .ok plan) :
    plan.packs.Pairwise (fun a b => b.size < a.size) ∧
    (∀ pb ∈ plan.packs, pb.size ∈ xs ∧ 0 < pb.count) ∧
    (plan.packs.map (fun pb => pb.size * (pb.count : Int))).sum = (plan.totalItems : Int) ∧
    (plan.packs.map (fun pb => pb.count)).sum = plan.totalPacks := by
  obtain ⟨plan', hok, _, _, _, _, _, _, hpair, hmem, hsum, hcnt, _⟩ :=
    optimize_success_spec i xs sizes h1 h2 hN hT
  rw [hok] at hplan
  have heq : plan' = plan := by injection hplan
  subst heq
  obtain ⟨_, _, _, hmemiff⟩ := normalize_ok_props xs sizes hN
  refine ⟨hpair, ?_, hsum, hcnt⟩
  intro pb hpb
  obtain ⟨hsz, hc⟩ := hmem pb hpb
  exact ⟨(hmemiff pb.size).mp hsz, hc⟩

theorem C3_breakdown_consistent_witness :
    Optimize 7 [3, 5] = .ok ⟨7, 8, 2, [⟨5, 1⟩, ⟨3, 1⟩]⟩ ∧
    (([⟨5, 1⟩, ⟨3, 1⟩] : List PackBreakdown).Pairwise (fun a b => b.size < a.size) ∧
      (∀ pb ∈ ([⟨5, 1⟩, ⟨3, 1⟩] : List PackBreakdown), pb.size ∈ [3, 5] ∧ 0 < pb.count) ∧
      (([⟨5, 1⟩, ⟨3, 1⟩] : List PackBreakdown).map
        (fun pb => pb.size * (pb.count : Int))).sum = ((8 : Nat) : Int) ∧
      (([⟨5, 1⟩, ⟨3, 1⟩] : List PackBreakdown).map (fun pb => pb.count)).sum = 2) :=
  ⟨rfl, C3_breakdown_consistent 7 [3, 5] [5, 3] ⟨7, 8, 2, [⟨5, 1⟩, ⟨3, 1⟩]⟩
    (by decide) (by decide) rfl (by decide) rfl⟩

/-- C10: on every valid input on which a plan is returned, the overfill is
strictly smaller than every pack size in the breakdown; equivalently,
removing any single pack drops the shipped total below the order. -/
theorem C10_overfill_lt_every_pack (i : Int) (xs sizes : List Int) (plan : Plan)
    (h1 : 0 < i) (h2 : i ≤ maxInt32Value)
    (hN : NormalizePackSizes xs = .ok sizes)
    (hT : i + sizes.headD 0 ≤ maxTableEntries)
    (hplan : Optimize i xs = .ok plan) :
    ∀ pb ∈ plan.packs, (plan.totalItems : Int) - i < pb.size ∧
      (plan.totalItems : Int) - pb.size < i := by
  obtain ⟨plan', hok, _, _, _, _, _, _, _, _, _, _, hover⟩ :=
    optimize_success_spec i xs sizes h1 h2 hN hT
  rw [hok] at hplan
  have heq : plan' = plan := by injection hplan
  subst heq
  intro pb hpb
  have := hover pb hpb
  exact ⟨this, by omega⟩

theorem C10_overfill_lt_every_pack_witness :
    Optimize 7 [3, 5] = .ok ⟨7, 8, 2, [⟨5, 1⟩, ⟨3, 1⟩]⟩ ∧
    ∀ pb ∈ ([⟨5, 1⟩, ⟨3, 1⟩] : List PackBreakdown),
      ((8 : Nat) : Int) - 7 < pb.size ∧ ((8 : Nat) : Int) - pb.size < 7 :=
  ⟨rfl, C10_overfill_lt_every_pack 7 [3, 5] [5, 3] ⟨7, 8, 2, [⟨5, 1⟩, ⟨3, 1⟩]⟩
    (by decide) (by decide) rfl (by decide) rfl⟩

/-- C7: `Optimize` returns exactly the same result on the raw list as on
its normalization, and any reordering or duplication of the raw list
(any list with the same set of values) yields the same result. -/
theorem C7_normalization_invariance (i : Int) (xs sizes : List Int)
    (hN : NormalizePackSizes xs = .ok sizes) :
    Optimize i xs = Optimize i sizes ∧
    ∀ ys : List Int, (∀ v, v ∈ ys ↔ v ∈ xs) → Optimize i ys = Optimize i xs := by
  constructor
  · exact optimize_congr i xs sizes (by rw [hN, normalize_idempotent xs sizes hN])
  · intro ys hmem
    exact optimize_congr i ys xs (by rw [normalize_mem_invariance xs sizes ys hN hmem, hN])

theorem C7_normalization_invariance_witness :
    NormalizePackSizes [3, 5, 5] = .ok [5, 3] ∧
    (Optimize 7 [3, 5, 5] = Optimize 7 [5, 3] ∧
      ∀ ys : List Int, (∀ v, v ∈ ys ↔ v ∈ ([3, 5, 5] : List Int)) →
        Optimize 7 ys = Optimize 7 [3, 5, 5]) :=
  ⟨rfl, C7_normalization_invariance 7 [3, 5, 5] [5, 3] rfl⟩

/-- C8: a zero order quantity always fails with the items-ordered
validation error, and a valid quantity with an empty pack-size list always
fails with the pack-sizes validation error; both cases return an error
value rather than crashing. -/
theorem C8_validation_errors :
    (∀ l : List Int, Optimize 0 l = .error .invalidItemsOrdered) ∧
    (∀ i : Int, 0 < i → i ≤ maxInt32Value → Optimize i [] = .error .invalidPackSizes) := by
  constructor
  · intro l
    unfold Optimize
    rw [if_pos (by omega)]
  · intro i h1 h2
    unfold Optimize
    rw [if_neg (by omega), if_neg (by omega)]
    have hn : NormalizePackSizes ([] : List Int) = .error .invalidPackSizes := rfl
    simp only [hn]

theorem C8_validation_errors_witness :
    Optimize 0 [3] = .error .invalidItemsOrdered ∧
    ((0 : Int) < 5 ∧ Optimize 5 [] = .error .invalidPackSizes) :=
  ⟨C8_validation_errors.1 [3], by decide,
    C8_validation_errors.2 5 (by decide) (by decide)⟩

/-- C6: with a valid quantity and successfully normalized sizes of largest
value `L`, `Optimize` fails with the too-large error exactly when the
derived fulfillment limit is non-positive or would need more than the
2,000,000-entry ceiling; equivalently exactly when
`itemsOrdered + L > 2,000,000`. -/
theorem C6_too_large_characterization (i : Int) (xs sizes : List Int)
    (h1 : 0 < i) (h2 : i ≤ maxInt32Value)
    (hN : NormalizePackSizes xs = .ok sizes) :
    (Optimize i xs = .error .optimizationTooLarge ↔
      (i + sizes.headD 0 - 1 ≤ 0 ∨ i + sizes.headD 0 - 1 + 1 > maxTableEntries)) ∧
    (Optimize i xs = .error .optimizationTooLarge ↔ i + sizes.headD 0 > 2000000) := by
  have hmain := optimize_tooLarge_iff i xs sizes h1 h2 hN
  obtain ⟨hne, _, hval, _⟩ := normalize_ok_props xs sizes hN
  have hL1 : 0 < sizes.headD 0 := (hval _ (headD_mem hne)).1
  have hmax : maxTableEntries = 2000000 := rfl
  refine ⟨hmain, ?_⟩
  rw [hmain]
  constructor
  · intro h; omega
  · intro h; omega

theorem C6_too_large_characterization_witness :
    ((0 : Int) < 1999996 ∧ NormalizePackSizes [5, 3] = .ok [5, 3]) ∧
    ((Optimize 1999996 [5, 3] = .error .optimizationTooLarge ↔
      ((1999996 : Int) + 5 - 1 ≤ 0 ∨ (1999996 : Int) + 5 - 1 + 1 > maxTableEntries)) ∧
     (Optimize 1999996 [5, 3] = .error .optimizationTooLarge ↔
      (1999996 : Int) + 5 > 2000000)) :=
  ⟨⟨by decide, rfl⟩,
    C6_too_large_characterization 1999996 [5, 3] [5, 3] (by decide) (by decide) rfl⟩

end PackOptimizer

namespace PackOptimizer

/-- C4: after the table fill, every reachable positive total's `prevPack`
is the largest pack size whose predecessor is in range and reachable and
whose candidate count equals the minimal count; no strictly larger pack
size (earlier in the descending order) satisfies those conditions, and in
particular later pack sizes achieving an equal count never override the
recorded one. -/
theorem C4_tiebreak_largest_first (i : Int) (xs sizes : List Int) (t0 : PackingTable)
    (hN : NormalizePackSizes xs = .ok sizes)
    (ht0 : newPackingTable i sizes = .ok t0) :
    ∀ total : Nat, 1 ≤ total → total ≤ (buildOptimalPackingTable t0).fulfillmentLimit →
      ((buildOptimalPackingTable t0).cells.getD total
          (unsetCell (buildOptimalPackingTable t0).unreachablePacks)).minPacks ≠
        (buildOptimalPackingTable t0).unreachablePacks →
      (((buildOptimalPackingTable t0).cells.getD total
            (unsetCell (buildOptimalPackingTable t0).unreachablePacks)).prevPack ∈ sizes ∧
        ((buildOptimalPackingTable t0).cells.getD total
            (unsetCell (buildOptimalPackingTable t0).unreachablePacks)).prevPack ≤ (total : Int) ∧
        ((buildOptimalPackingTable t0).cells.getD
            (total - ((buildOptimalPackingTable t0).cells.getD total
              (unsetCell (buildOptimalPackingTable t0).unreachablePacks)).prevPack.toNat)
            (unsetCell (buildOptimalPackingTable t0).unreachablePacks)).minPacks ≠
          (buildOptimalPackingTable t0).unreachablePacks ∧
        ((buildOptimalPackingTable t0).cells.getD
            (total - ((buildOptimalPackingTable t0).cells.getD total
              (unsetCell (buildOptimalPackingTable t0).unreachablePacks)).prevPack.toNat)
            (unsetCell (buildOptimalPackingTable t0).unreachablePacks)).minPacks + 1 =
          ((buildOptimalPackingTable t0).cells.getD total
            (unsetCell (buildOptimalPackingTable t0).unreachablePacks)).minPacks) ∧
      ∀ q ∈ sizes,
        ((buildOptimalPackingTable t0).cells.getD total
          (unsetCell (buildOptimalPackingTable t0).unreachablePacks)).prevPack < q →
        ¬(q ≤ (total : Int) ∧
          ((buildOptimalPackingTable t0).cells.getD (total - q.toNat)
              (unsetCell (buildOptimalPackingTable t0).unreachablePacks)).minPacks ≠
            (buildOptimalPackingTable t0).unreachablePacks ∧
          ((buildOptimalPackingTable t0).cells.getD (total - q.toNat)
              (unsetCell (buildOptimalPackingTable t0).unreachablePacks)).minPacks + 1 =
            ((buildOptimalPackingTable t0).cells.getD total
              (unsetCell (buildOptimalPackingTable t0).unreachablePacks)).minPacks) := by
  obtain ⟨hck1, hck2, ht0eq⟩ := newPackingTable_ok_elim i sizes t0 ht0
  subst ht0eq
  obtain ⟨hne, hdesc, hval, _⟩ := normalize_ok_props xs sizes hN
  have hpos : ∀ s ∈ sizes, 0 < s := fun s hs => (hval s hs).1
  have hsm1 : 0 < sizes.getLastD 0 := hpos _ (getLastD_mem sizes 0 hne)
  have hsmle : ∀ s ∈ sizes, sizes.getLastD 0 ≤ s := getLastD_le sizes 0 hdesc
  set limitN := (i + sizes.headD 0 - 1).toNat with hlimdef
  set uN := limitN / (sizes.getLastD 0).toNat + 1 with hudef
  have hb : buildOptimalPackingTable ⟨i, sizes, limitN, uN, initCells limitN uN⟩ =
      ⟨i, sizes, limitN, uN, buildTable sizes uN limitN⟩ := rfl
  rw [hb]
  show ∀ total : Nat, 1 ≤ total → total ≤ limitN →
      ((buildTable sizes uN limitN).getD total (unsetCell uN)).minPacks ≠ uN →
      (((buildTable sizes uN limitN).getD total (unsetCell uN)).prevPack ∈ sizes ∧
        ((buildTable sizes uN limitN).getD total (unsetCell uN)).prevPack ≤ (total : Int) ∧
        ((buildTable sizes uN limitN).getD
            (total - ((buildTable sizes uN limitN).getD total
              (unsetCell uN)).prevPack.toNat) (unsetCell uN)).minPacks ≠ uN ∧
        ((buildTable sizes uN limitN).getD
            (total - ((buildTable sizes uN limitN).getD total
              (unsetCell uN)).prevPack.toNat) (unsetCell uN)).minPacks + 1 =
          ((buildTable sizes uN limitN).getD total (unsetCell uN)).minPacks) ∧
      ∀ q ∈ sizes,
        ((buildTable sizes uN limitN).getD total (unsetCell uN)).prevPack < q →
        ¬(q ≤ (total : Int) ∧
          ((buildTable sizes uN limitN).getD (total - q.toNat)
            (unsetCell uN)).minPacks ≠ uN ∧
          ((buildTable sizes uN limitN).getD (total - q.toNat)
            (unsetCell uN)).minPacks + 1 =
            ((buildTable sizes uN limitN).getD total (unsetCell uN)).minPacks)
  intro total h1t h2t hnet
  rw [buildTable_getD sizes uN limitN total h2t] at hnet ⊢
  obtain ⟨s, hs, hs0, hsle2, hpp, _, hpne, hpeq⟩ :=
    (diag_invariant sizes limitN (sizes.getLastD 0) uN hpos hsmle hsm1 hudef
      total h2t).2.2 (by omega) hnet
  constructor
  · rw [hpp, buildTable_getD sizes uN limitN _ (by omega)]
    exact ⟨hs, hsle2, hpne, hpeq.symm⟩
  · intro q hq hlt
    rw [buildTable_getD sizes uN limitN _ (by omega)]
    intro hcon
    exact diag_tiebreak sizes limitN (sizes.getLastD 0) uN hpos hsmle hsm1 hudef hdesc
      total h2t (by omega) q hq hlt ⟨hcon.1, hcon.2.1, hcon.2.2⟩

theorem C4_tiebreak_largest_first_witness :
    newPackingTable 5 [4, 3] = .ok ⟨5, [4, 3], 8, 3, initCells 8 3⟩ ∧
    (∀ total : Nat, 1 ≤ total →
      total ≤ (buildOptimalPackingTable ⟨5, [4, 3], 8, 3, initCells 8 3⟩).fulfillmentLimit →
      ((buildOptimalPackingTable ⟨5, [4, 3], 8, 3, initCells 8 3⟩).cells.getD total
          (unsetCell (buildOptimalPackingTable
            ⟨5, [4, 3], 8, 3, initCells 8 3⟩).unreachablePacks)).minPacks ≠
        (buildOptimalPackingTable ⟨5, [4, 3], 8, 3, initCells 8 3⟩).unreachablePacks →
      (((buildOptimalPackingTable ⟨5, [4, 3], 8, 3, initCells 8 3⟩).cells.getD total
            (unsetCell (buildOptimalPackingTable
              ⟨5, [4, 3], 8, 3, initCells 8 3⟩).unreachablePacks)).prevPack ∈
          ([4, 3] : List Int) ∧
        ((buildOptimalPackingTable ⟨5, [4, 3], 8, 3, initCells 8 3⟩).cells.getD total
            (unsetCell (buildOptimalPackingTable
              ⟨5, [4, 3], 8, 3, initCells 8 3⟩).unreachablePacks)).prevPack ≤ (total : Int) ∧
        ((buildOptimalPackingTable ⟨5, [4, 3], 8, 3, initCells 8 3⟩).cells.getD
            (total - ((buildOptimalPackingTable ⟨5, [4, 3], 8, 3, initCells 8 3⟩).cells.getD
              total (unsetCell (buildOptimalPackingTable
                ⟨5, [4, 3], 8, 3, initCells 8 3⟩).unreachablePacks)).prevPack.toNat)
            (unsetCell (buildOptimalPackingTable
              ⟨5, [4, 3], 8, 3, initCells 8 3⟩).unreachablePacks)).minPacks ≠
          (buildOptimalPackingTable ⟨5, [4, 3], 8, 3, initCells 8 3⟩).unreachablePacks ∧
        ((buildOptimalPackingTable ⟨5, [4, 3], 8, 3, initCells 8 3⟩).cells.getD
            (total - ((buildOptimalPackingTable ⟨5, [4, 3], 8, 3, initCells 8 3⟩).cells.getD
              total (unsetCell (buildOptimalPackingTable
                ⟨5, [4, 3], 8, 3, initCells 8 3⟩).unreachablePacks)).prevPack.toNat)
            (unsetCell (buildOptimalPackingTable
              ⟨5, [4, 3], 8, 3, initCells 8 3⟩).unreachablePacks)).minPacks + 1 =
          ((buildOptimalPackingTable ⟨5, [4, 3], 8, 3, initCells 8 3⟩).cells.getD total
            (unsetCell (buildOptimalPackingTable
              ⟨5, [4, 3], 8, 3, initCells 8 3⟩).unreachablePacks)).minPacks) ∧
      ∀ q ∈ ([4, 3] : List Int),
        ((buildOptimalPackingTable ⟨5, [4, 3], 8, 3, initCells 8 3⟩).cells.getD total
          (unsetCell (buildOptimalPackingTable
            ⟨5, [4, 3], 8, 3, initCells 8 3⟩).unreachablePacks)).prevPack < q →
        ¬(q ≤ (total : Int) ∧
          ((buildOptimalPackingTable ⟨5, [4, 3], 8, 3, initCells 8 3⟩).cells.getD
              (total - q.toNat) (unsetCell (buildOptimalPackingTable
                ⟨5, [4, 3], 8, 3, initCells 8 3⟩).unreachablePacks)).minPacks ≠
            (buildOptimalPackingTable ⟨5, [4, 3], 8, 3, initCells 8 3⟩).unreachablePacks ∧
          ((buildOptimalPackingTable ⟨5, [4, 3], 8, 3, initCells 8 3⟩).cells.getD
              (total - q.toNat) (unsetCell (buildOptimalPackingTable
                ⟨5, [4, 3], 8, 3, initCells 8 3⟩).unreachablePacks)).minPacks + 1 =
            ((buildOptimalPackingTable ⟨5, [4, 3], 8, 3, initCells 8 3⟩).cells.getD total
              (unsetCell (buildOptimalPackingTable
                ⟨5, [4, 3], 8, 3, initCells 8 3⟩).unreachablePacks)).minPacks)) :=
  ⟨rfl, C4_tiebreak_largest_first 5 [4, 3] [4, 3] ⟨5, [4, 3], 8, 3, initCells 8 3⟩ rfl rfl⟩

end PackOptimizer

namespace PackOptimizer

/-- C9: the sentinel equals `fulfillmentLimit / smallest + 1`; during the
fill every intermediate inner-loop value, and after the fill every entry,
is either exactly the sentinel or at most `fulfillmentLimit / smallest`,
so no genuine pack count ever equals the sentinel and comparing against it
decides reachability exactly. -/
theorem C9_sentinel_invariant (i : Int) (xs sizes : List Int) (t0 : PackingTable)
    (hN : NormalizePackSizes xs = .ok sizes)
    (ht0 : newPackingTable i sizes = .ok t0) :
    t0.unreachablePacks = t0.fulfillmentLimit / (sizes.getLastD 0).toNat + 1 ∧
    (∀ total : Nat, total ≤ t0.fulfillmentLimit →
      (((buildOptimalPackingTable t0).cells.getD total
          (unsetCell t0.unreachablePacks)).minPacks = t0.unreachablePacks ∨
        ((buildOptimalPackingTable t0).cells.getD total
          (unsetCell t0.unreachablePacks)).minPacks ≤
          t0.fulfillmentLimit / (sizes.getLastD 0).toNat) ∧
      (((buildOptimalPackingTable t0).cells.getD total
          (unsetCell t0.unreachablePacks)).minPacks ≠ t0.unreachablePacks ↔
        Reachable sizes (total : Int))) ∧
    (∀ n : Nat, n + 1 ≤ t0.fulfillmentLimit → ∀ l1 l2 : List Int, sizes = l1 ++ l2 →
      (l1.foldl (stepCell t0.unreachablePacks
          (buildTable sizes t0.unreachablePacks n) (n + 1))
          (unsetCell t0.unreachablePacks)).minPacks = t0.unreachablePacks ∨
      (l1.foldl (stepCell t0.unreachablePacks
          (buildTable sizes t0.unreachablePacks n) (n + 1))
          (unsetCell t0.unreachablePacks)).minPacks ≤
        t0.fulfillmentLimit / (sizes.getLastD 0).toNat) := by
  obtain ⟨hck1, hck2, ht0eq⟩ := newPackingTable_ok_elim i sizes t0 ht0
  subst ht0eq
  obtain ⟨hne, hdesc, hval, _⟩ := normalize_ok_props xs sizes hN
  have hpos : ∀ s ∈ sizes, 0 < s := fun s hs => (hval s hs).1
  have hsm1 : 0 < sizes.getLastD 0 := hpos _ (getLastD_mem sizes 0 hne)
  have hsmle : ∀ s ∈ sizes, sizes.getLastD 0 ≤ s := getLastD_le sizes 0 hdesc
  set limitN := (i + sizes.headD 0 - 1).toNat with hlimdef
  set uN := limitN / (sizes.getLastD 0).toNat + 1 with hudef
  refine ⟨hudef, ?_, ?_⟩
  · intro total htot
    have htot' : total ≤ limitN := htot
    show (((buildTable sizes uN limitN).getD total (unsetCell uN)).minPacks = uN ∨
        ((buildTable sizes uN limitN).getD total (unsetCell uN)).minPacks ≤
          limitN / (sizes.getLastD 0).toNat) ∧
      (((buildTable sizes uN limitN).getD total (unsetCell uN)).minPacks ≠ uN ↔
        Reachable sizes (total : Int))
    rw [buildTable_getD sizes uN limitN total htot']
    constructor
    · by_cases hneq : (diag sizes uN total).minPacks = uN
      · exact Or.inl hneq
      · refine Or.inr ?_
        have hb := diag_minPacks_bound sizes limitN (sizes.getLastD 0) uN hpos hsmle hsm1
          hudef total htot' hneq
        have hmono : total / (sizes.getLastD 0).toNat ≤ limitN / (sizes.getLastD 0).toNat :=
          Nat.div_le_div_right htot'
        omega
    · exact diag_reachable_iff sizes limitN (sizes.getLastD 0) uN hpos hsmle hsm1 hudef
        total htot'
  · intro n hn l1 l2 hsplit
    rcases foldl_origin uN (buildTable sizes uN n) (n + 1) l1 (unsetCell uN) with
      h | ⟨s, hs, hOK, heq, _⟩
    · left
      rw [h]
      rfl
    · right
      rw [heq]
      have hmem : s ∈ sizes := by
        rw [hsplit]
        exact List.mem_append_left l2 hs
      have hv := cand_lt_u sizes limitN (sizes.getLastD 0) uN hpos hsmle hsm1 hudef
        n hn s hmem hOK
      show candVal (buildTable sizes uN n) uN (n + 1) s ≤ limitN / (sizes.getLastD 0).toNat
      omega

theorem C9_sentinel_invariant_witness :
    newPackingTable 5 [4, 3] = .ok ⟨5, [4, 3], 8, 3, initCells 8 3⟩ ∧
    ((⟨5, [4, 3], 8, 3, initCells 8 3⟩ : PackingTable).unreachablePacks =
      (⟨5, [4, 3], 8, 3, initCells 8 3⟩ : PackingTable).fulfillmentLimit /
        (([4, 3] : List Int).getLastD 0).toNat + 1 ∧
    (∀ total : Nat,
      total ≤ (⟨5, [4, 3], 8, 3, initCells 8 3⟩ : PackingTable).fulfillmentLimit →
      (((buildOptimalPackingTable ⟨5, [4, 3], 8, 3, initCells 8 3⟩).cells.getD total
          (unsetCell (⟨5, [4, 3], 8, 3, initCells 8 3⟩ : PackingTable).unreachablePacks)).minPacks =
          (⟨5, [4, 3], 8, 3, initCells 8 3⟩ : PackingTable).unreachablePacks ∨
        ((buildOptimalPackingTable ⟨5, [4, 3], 8, 3, initCells 8 3⟩).cells.getD total
          (unsetCell (⟨5, [4, 3], 8, 3, initCells 8 3⟩ : PackingTable).unreachablePacks)).minPacks ≤
          (⟨5, [4, 3], 8, 3, initCells 8 3⟩ : PackingTable).fulfillmentLimit /
            (([4, 3] : List Int).getLastD 0).toNat) ∧
      (((buildOptimalPackingTable ⟨5, [4, 3], 8, 3, initCells 8 3⟩).cells.getD total
          (unsetCell (⟨5, [4, 3], 8, 3, initCells 8 3⟩ : PackingTable).unreachablePacks)).minPacks ≠
          (⟨5, [4, 3], 8, 3, initCells 8 3⟩ : PackingTable).unreachablePacks ↔
        Reachable [4, 3] (total : Int))) ∧
    (∀ n : Nat,
      n + 1 ≤ (⟨5, [4, 3], 8, 3, initCells 8 3⟩ : PackingTable).fulfillmentLimit →
      ∀ l1 l2 : List Int, ([4, 3] : List Int) = l1 ++ l2 →
      (l1.foldl (stepCell (⟨5, [4, 3], 8, 3, initCells 8 3⟩ : PackingTable).unreachablePacks
          (buildTable [4, 3] (⟨5, [4, 3], 8, 3, initCells 8 3⟩ : PackingTable).unreachablePacks n)
          (n + 1))
          (unsetCell (⟨5, [4, 3], 8, 3, initCells 8 3⟩ : PackingTable).unreachablePacks)).minPacks =
        (⟨5, [4, 3], 8, 3, initCells 8 3⟩ : PackingTable).unreachablePacks ∨
      (l1.foldl (stepCell (⟨5, [4, 3], 8, 3, initCells 8 3⟩ : PackingTable).unreachablePacks
          (buildTable [4, 3] (⟨5, [4, 3], 8, 3, initCells 8 3⟩ : PackingTable).unreachablePacks n)
          (n + 1))
          (unsetCell (⟨5, [4, 3], 8, 3, initCells 8 3⟩ : PackingTable).unreachablePacks)).minPacks ≤
        (⟨5, [4, 3], 8, 3, initCells 8 3⟩ : PackingTable).fulfillmentLimit /
          (([4, 3] : List Int).getLastD 0).toNat)) :=
  ⟨rfl, C9_sentinel_invariant 5 [4, 3] [4, 3] ⟨5, [4, 3], 8, 3, initCells 8 3⟩ rfl rfl⟩

end PackOptimizer

namespace PackOptimizer

/-- C5: under valid preconditions the internal-consistency branches never
fire: the total-selection scan always returns a reachable total between
the order quantity and the fulfillment limit, the breakdown reconstruction
always succeeds, and `Optimize` therefore returns a plan (and never the
`noPackingPlan` or `reconstructPlan` errors). -/
theorem C5_internal_errors_unreachable (i : Int) (xs sizes : List Int)
    (h1 : 0 < i) (h2 : i ≤ maxInt32Value)
    (hN : NormalizePackSizes xs = .ok sizes)
    (hT : i + sizes.headD 0 ≤ maxTableEntries) :
    (∀ t0 : PackingTable, newPackingTable i sizes = .ok t0 →
      ∃ chosen : Nat, chooseFulfillmentTotal (buildOptimalPackingTable t0) = .ok chosen ∧
        i ≤ (chosen : Int) ∧ chosen ≤ t0.fulfillmentLimit ∧
        Reachable sizes (chosen : Int) ∧
        ∃ bd, buildBreakdown (buildOptimalPackingTable t0) chosen = .ok bd) ∧
    Optimize i xs ≠ .error .noPackingPlan ∧
    Optimize i xs ≠ .error .reconstructPlan ∧
    ∃ plan, Optimize i xs = .ok plan := by
  obtain ⟨plan, hok, hrest⟩ := optimize_success_spec i xs sizes h1 h2 hN hT
  refine ⟨?_, by rw [hok]; simp, by rw [hok]; simp, plan, hok⟩
  intro t0 ht0
  obtain ⟨hck1, hck2, ht0eq⟩ := newPackingTable_ok_elim i sizes t0 ht0
  subst ht0eq
  obtain ⟨hne, hdesc, hval, _⟩ := normalize_ok_props xs sizes hN
  have hpos : ∀ s ∈ sizes, 0 < s := fun s hs => (hval s hs).1
  have hsm1 : 0 < sizes.getLastD 0 := hpos _ (getLastD_mem sizes 0 hne)
  have hsmle : ∀ s ∈ sizes, sizes.getLastD 0 ≤ s := getLastD_le sizes 0 hdesc
  set limitN := (i + sizes.headD 0 - 1).toNat with hlimdef
  set uN := limitN / (sizes.getLastD 0).toNat + 1 with hudef
  have hEq : Optimize i xs =
      (match chooseFulfillmentTotal (buildOptimalPackingTable
          ⟨i, sizes, limitN, uN, initCells limitN uN⟩) with
        | .error e => (.error e : Except OptError Plan)
        | .ok chosenTotal =>
          match buildBreakdown (buildOptimalPackingTable
              ⟨i, sizes, limitN, uN, initCells limitN uN⟩) chosenTotal with
          | .error e => .error e
          | .ok breakdown =>
            .ok ⟨i, chosenTotal,
              ((buildOptimalPackingTable
                  ⟨i, sizes, limitN, uN, initCells limitN uN⟩).cells.getD chosenTotal
                (unsetCell (buildOptimalPackingTable
                  ⟨i, sizes, limitN, uN, initCells limitN uN⟩).unreachablePacks)).minPacks,
              breakdown⟩) := by
    unfold Optimize
    rw [if_neg (by omega), if_neg (by omega)]
    simp only [hN, ht0]
  rcases hch : chooseFulfillmentTotal (buildOptimalPackingTable
      ⟨i, sizes, limitN, uN, initCells limitN uN⟩) with e | chosen
  · rw [hch] at hEq
    rw [hok] at hEq
    simp at hEq
  · have hch' : chooseFrom (buildTable sizes uN limitN) uN
        ((buildTable sizes uN limitN).length - i.toNat) i.toNat = .ok chosen := hch
    obtain ⟨hcs1, hcs2, hcs3, _⟩ := chooseFrom_ok_spec (buildTable sizes uN limitN) uN
      _ _ _ hch'
    have hlen := buildTable_length sizes uN limitN
    have hchlim : chosen ≤ limitN := by omega
    have hchne : (diag sizes uN chosen).minPacks ≠ uN := by
      rw [← buildTable_getD sizes uN limitN _ hchlim]
      exact hcs3
    have hreach : Reachable sizes ((chosen : Nat) : Int) :=
      (diag_reachable_iff sizes limitN (sizes.getLastD 0) uN hpos hsmle hsm1 hudef
        chosen hchlim).mp hchne
    rcases hbd : buildBreakdown (buildOptimalPackingTable
        ⟨i, sizes, limitN, uN, initCells limitN uN⟩) chosen with e | bd
    · rw [hch] at hEq
      rw [hok] at hEq
      simp [hbd] at hEq
    · exact ⟨chosen, rfl, by omega, hchlim, hreach, bd, hbd⟩

theorem C5_internal_errors_unreachable_witness :
    ((0 : Int) < 7 ∧ NormalizePackSizes [3, 5] = .ok [5, 3] ∧
      (7 : Int) + ([5, 3] : List Int).headD 0 ≤ maxTableEntries) ∧
    ((∀ t0 : PackingTable, newPackingTable 7 [5, 3] = .ok t0 →
      ∃ chosen : Nat, chooseFulfillmentTotal (buildOptimalPackingTable t0) = .ok chosen ∧
        (7 : Int) ≤ (chosen : Int) ∧ chosen ≤ t0.fulfillmentLimit ∧
        Reachable [5, 3] (chosen : Int) ∧
        ∃ bd, buildBreakdown (buildOptimalPackingTable t0) chosen = .ok bd) ∧
    Optimize 7 [3, 5] ≠ .error .noPackingPlan ∧
    Optimize 7 [3, 5] ≠ .error .reconstructPlan ∧
    ∃ plan, Optimize 7 [3, 5] = .ok plan) :=
  ⟨⟨by decide, rfl, by decide⟩,
    C5_internal_errors_unreachable 7 [3, 5] [5, 3] (by decide) (by decide) rfl (by decide)⟩

end PackOptimizer
